import Mathlib

/-!
# PromHouse `promhouse-load` file client: framed record codec

Shallow embedding of `cmd/promhouse-load/file.go` (`fileClient`, `newFileClient`,
`readTS`, `writeTS`).

Modelling conventions.

* A Go byte slice is a `Slice`: the backing array from the slice start up to its
  capacity, together with the logical length.  Bytes past the logical length are
  kept, so stale data of an earlier call is visible to the model.
* `*os.File` is an in-memory `File`: the content and the current offset.  Reads
  stop at end of data; device failures are not modelled, except the failure of the
  offset query `Seek(0, 1)` and of `Stat`, which are inputs.
* The clock is an input (`Env`): the reading taken by `time.Since` and the reading
  taken by `time.Now`, in nanoseconds.
* The record type and the Snappy block codec are external libraries.  Their pure
  content functions are the fields of `Prims`; the buffer handling that
  `snappy.Encode` / `snappy.Decode` perform on the destination slice follows the
  documented behaviour of `github.com/golang/snappy`.
* A Go run-time panic is the error value `Err.panic`.
-/

namespace PromHouse

/-- One byte. -/
abbrev Byte := Fin 256

/-- Error values returned by the codec. -/
inductive Err where
  /-- The sentinel `io.EOF`. -/
  | EOF
  /-- The sentinel `io.ErrUnexpectedEOF`. -/
  | ErrUnexpectedEOF
  /-- An error value produced by an external primitive. -/
  | other (msg : String)
  /-- The value `errors.Wrap(cause, msg)`. -/
  | wrap (cause : Err) (msg : String)
  /-- The value `errors.Errorf("unexpected size: expected %d, got %d", expected, got)`. -/
  | unexpectedSize (expected got : Nat)
  /-- A run-time panic. -/
  | panic (msg : String)
  deriving DecidableEq, Repr

/-! ## Byte slices -/

/-- Go slice of bytes: `arr` is the backing array from the first element of the slice
up to its capacity, `len` the logical length. -/
structure Slice where
  arr : List Byte
  len : Nat
  deriving DecidableEq, Repr

namespace Slice

/-- Capacity `cap(s)`. -/
def cap (s : Slice) : Nat := s.arr.length

/-- The bytes `s[0:len(s)]` seen by a callee. -/
def bytes (s : Slice) : List Byte := s.arr.take s.len

/-- The nil slice. -/
def nil : Slice := ⟨[], 0⟩

/-- Allocation `make([]byte, n)`: zero filled, length and capacity `n`. -/
def make (n : Nat) : Slice := ⟨List.replicate n 0, n⟩

/-- Slice expression `s[:n]`; Go panics when `n` exceeds the capacity. -/
def reslice (s : Slice) (n : Nat) : Except Err Slice :=
  if n ≤ s.cap then .ok ⟨s.arr, n⟩ else .error (.panic "slice bounds out of range")

/-- Store `bs` at the front of the backing array (the caller guarantees room). -/
def store (s : Slice) (bs : List Byte) : Slice := ⟨bs ++ s.arr.drop bs.length, s.len⟩

end Slice

/-! ## The file -/

/-- In-memory file: content and current offset. -/
structure File where
  data : List Byte
  pos : Nat
  deriving DecidableEq, Repr

namespace File

/-- Bytes from the current offset to the end of data. -/
def remaining (f : File) : List Byte := f.data.drop f.pos

/-- Sequential `Write` of `bs` at the current offset (a gap past the end is zero
filled); the offset moves past the written bytes. -/
def write (f : File) (bs : List Byte) : File :=
  ⟨f.data.take f.pos ++ List.replicate (f.pos - f.data.length) 0 ++ bs
      ++ f.data.drop (f.pos + bs.length), f.pos + bs.length⟩

/-- Result of `io.ReadFull(f, buf)` for a buffer of `n` bytes: the file afterwards, the
bytes obtained and the error.  No byte obtained and `n > 0` gives `io.EOF`, fewer than
`n` gives `io.ErrUnexpectedEOF`. -/
def readFull (f : File) (n : Nat) : File × List Byte × Option Err :=
  let got := f.remaining.take n
  let f1 : File := ⟨f.data, f.pos + got.length⟩
  if got.length = n then (f1, got, none)
  else if got.length = 0 then (f1, got, some .EOF)
  else (f1, got, some .ErrUnexpectedEOF)

end File

/-! ## Big-endian 32-bit integers -/

/-- The value `binary.BigEndian.Uint32(bs)` of four bytes. -/
def beUint32 (bs : List Byte) : Nat :=
  match bs with
  | [b0, b1, b2, b3] => b0.val * 16777216 + b1.val * 65536 + b2.val * 256 + b3.val
  | _ => 0

/-- The bytes `binary.BigEndian.PutUint32` stores for `uint32(n)`: the conversion keeps
the low 32 bits of `n`. -/
def putUint32 (n : Nat) : List Byte :=
  let v := n % 4294967296
  [⟨v / 16777216 % 256, Nat.mod_lt _ (by decide)⟩, ⟨v / 65536 % 256, Nat.mod_lt _ (by decide)⟩,
   ⟨v / 256 % 256, Nat.mod_lt _ (by decide)⟩, ⟨v % 256, Nat.mod_lt _ (by decide)⟩]

/-- Call `binary.Read(f, binary.BigEndian, &size)` for a `uint32`: `io.ReadFull` of four
bytes, then the big-endian value. -/
def binaryReadUint32 (f : File) : File × Except Err Nat :=
  match f.readFull 4 with
  | (f1, _, some e) => (f1, .error e)
  | (f1, got, none) => (f1, .ok (beUint32 got))

/-- Call `binary.Write(f, binary.BigEndian, v)` for a `uint32` (the in-memory file
accepts every write). -/
def binaryWriteUint32 (f : File) (n : Nat) : File × Option Err :=
  (f.write (putUint32 n), none)

/-- Call `f.Write(b)` (the in-memory file accepts every write). -/
def fileWrite (f : File) (b : Slice) : File × Option Err :=
  (f.write b.bytes, none)

/-! ## External primitives -/

/-- Function `snappy.MaxEncodedLen`: `none` stands for the negative result returned when
the block would be too large. -/
def MaxEncodedLen (srcLen : Nat) : Option Nat :=
  if srcLen > 4294967295 then none
  else
    let n := 32 + srcLen + srcLen / 6
    if n > 4294967295 then none else some n

/-- The external primitives over a record type `R`.

* `Size` is `ts.Size()` (never negative).
* `marshal` is what `ts.MarshalTo` does: the error it returns, or the bytes it stores
  from index 0 of its argument together with the count it reports.  The count is
  whatever the record reports, below or above `Size()`; `marshal_exact` only asks that
  a record reporting exactly `Size()` has stored that many bytes.
* `Unmarshal` is `proto.Unmarshal` into a fresh record.
* `encodeBlock` / `decodeBlock` are the Snappy block format; `encodeBlock_le` is the
  bound that `snappy.MaxEncodedLen` documents for it. -/
structure Prims (R : Type) where
  Size : R → Nat
  marshal : R → Except String (List Byte × Nat)
  Unmarshal : List Byte → Except String R
  encodeBlock : List Byte → List Byte
  decodeBlock : List Byte → Except String (List Byte)
  marshal_exact : ∀ r out, marshal r = .ok (out, Size r) → out.length = Size r
  encodeBlock_le : ∀ src, (encodeBlock src).length ≤ 32 + src.length + src.length / 6

/-- Call `ts.MarshalTo(dst)`: the bytes of the record are stored from index 0 (a store
past `len(dst)` panics) and the count of the record is reported. -/
def MarshalTo {R : Type} (P : Prims R) (ts : R) (dst : Slice) : Slice × Except Err Nat :=
  match P.marshal ts with
  | .error e => (dst, .error (.other e))
  | .ok (out, n) =>
    if out.length ≤ dst.len then (dst.store out, .ok n)
    else (dst, .error (.panic "index out of range"))

/-- Call `snappy.Decode(dst, src)`: the decoded block is returned in `dst[:dLen]` when
`dLen <= len(dst)` and in a fresh allocation otherwise; on failure the returned slice is
nil. -/
def snappyDecode {R : Type} (P : Prims R) (dst : Slice) (src : List Byte) : Slice × Option Err :=
  match P.decodeBlock src with
  | .error e => (Slice.nil, some (.other e))
  | .ok out =>
    if out.length ≤ dst.len then (⟨out ++ dst.arr.drop out.length, out.length⟩, none)
    else (⟨out, out.length⟩, none)

/-- Call `snappy.Encode(dst, src)`: panics with `ErrTooLarge` when `MaxEncodedLen` is
negative, allocates when `len(dst)` is below `MaxEncodedLen`, and returns `dst[:d]` for
the `d` bytes of the block. -/
def snappyEncode {R : Type} (P : Prims R) (dst : Slice) (src : List Byte) : Except Err Slice :=
  match MaxEncodedLen src.length with
  | none => .error (.panic "snappy: decoded block is too large")
  | some n =>
    let dst1 := if dst.len < n then Slice.make n else dst
    let out := P.encodeBlock src
    .ok ⟨out ++ dst1.arr.drop out.length, out.length⟩

/-! ## The file client -/

/-- State of `fileClient` (the logger is left out; its output is returned by `readTS`). -/
structure fileClient where
  f : File
  fSize : Nat
  lastLog : Int
  bRead : Slice
  bDecoded : Slice
  bMarshaled : Slice
  bEncoded : Slice
  deriving DecidableEq, Repr

/-- Inputs of one call that do not come from the file content: the clock reading taken
by `time.Since`, the later reading taken by `time.Now` (nanoseconds), and whether the
offset query `Seek(0, 1)` fails. -/
structure Env where
  sinceNow : Int
  now : Int
  seekFails : Bool
  deriving DecidableEq, Repr

/-- Progress notification: the operands of the percentage `offset*100 / fSize`. -/
structure Progress where
  offset : Nat
  fSize : Nat
  deriving DecidableEq, Repr

/-- Ten seconds in nanoseconds. -/
def tenSeconds : Int := 10000000000

/-- Constructor `newFileClient`; `statFails` tells whether `f.Stat()` returns an error. -/
def newFileClient (f : File) (statFails : Bool) : fileClient :=
  { f := f
    fSize := if statFails then 0 else f.data.length
    lastLog := 0
    bRead := Slice.make 1048576
    bDecoded := Slice.make 1048576
    bMarshaled := Slice.make 1048576
    bEncoded := Slice.make 1048576 }

/-- Lines 61-69 of `readTS`: the throttled progress report. -/
def logProgress (env : Env) (fc : fileClient) : fileClient × List Progress :=
  if env.sinceNow - fc.lastLog > tenSeconds then
    let fc1 := { fc with lastLog := env.now }
    if fc1.fSize ≠ 0 then
      if env.seekFails then (fc1, []) else (fc1, [⟨fc1.f.pos, fc1.fSize⟩])
    else (fc1, [])
  else (fc, [])

/-- Lines 80-84 of `readTS`: resize `bRead` to `size` bytes. -/
def resizeRead (b : Slice) (size : Nat) : Except Err Slice :=
  if b.cap % 4294967296 ≥ size then b.reslice size else .ok (Slice.make size)

/-- Lines 108-112 of `writeTS`: resize `bMarshaled` to `size` bytes. -/
def resizeMarshaled (b : Slice) (size : Nat) : Except Err Slice :=
  if b.cap ≥ size then b.reslice size else .ok (Slice.make size)

/-- Method `readTS`: the state afterwards, the notifications emitted, and the returned
record or error. -/
def readTS {R : Type} (P : Prims R) (env : Env) (fc : fileClient) :
    fileClient × List Progress × Except Err R :=
  match logProgress env fc with
  | (fc0, logs) =>
    match binaryReadUint32 fc0.f with
    | (f1, .error e) =>
      if e = Err.EOF then ({ fc0 with f := f1 }, logs, .error e)
      else ({ fc0 with f := f1 }, logs, .error (.wrap e "failed to read message size"))
    | (f1, .ok size) =>
      match resizeRead fc0.bRead size with
      | .error e => ({ fc0 with f := f1 }, logs, .error e)
      | .ok b =>
        match f1.readFull b.len with
        | (f2, got, some e) =>
          ({ fc0 with f := f2, bRead := b.store got }, logs,
            .error (.wrap e "failed to read message"))
        | (f2, got, none) =>
          let bRead := b.store got
          match fc0.bDecoded.reslice fc0.bDecoded.cap with
          | .error e => ({ fc0 with f := f2, bRead := bRead }, logs, .error e)
          | .ok dst =>
            match snappyDecode P dst bRead.bytes with
            | (d, some e) =>
              ({ fc0 with f := f2, bRead := bRead, bDecoded := d }, logs,
                .error (.wrap e "failed to decode message"))
            | (d, none) =>
              match P.Unmarshal d.bytes with
              | .error e =>
                ({ fc0 with f := f2, bRead := bRead, bDecoded := d }, logs,
                  .error (.wrap (.other e) "failed to unmarshal message"))
              | .ok ts => ({ fc0 with f := f2, bRead := bRead, bDecoded := d }, logs, .ok ts)

/-- Method `writeTS`: the state afterwards and the returned error (`.ok ()` is `nil`). -/
def writeTS {R : Type} (P : Prims R) (fc : fileClient) (ts : R) : fileClient × Except Err Unit :=
  match resizeMarshaled fc.bMarshaled (P.Size ts) with
  | .error e => (fc, .error e)
  | .ok bm =>
    match MarshalTo P ts bm with
    | (bm1, .error e) =>
      match e with
      | .panic m => ({ fc with bMarshaled := bm1 }, .error (.panic m))
      | e => ({ fc with bMarshaled := bm1 }, .error (.wrap e "failed to marshal message"))
    | (bm1, .ok size) =>
      if P.Size ts ≠ size then
        ({ fc with bMarshaled := bm1 }, .error (.unexpectedSize (P.Size ts) size))
      else
        match fc.bEncoded.reslice fc.bEncoded.cap with
        | .error e => ({ fc with bMarshaled := bm1 }, .error e)
        | .ok dst =>
          match bm1.reslice size with
          | .error e => ({ fc with bMarshaled := bm1, bEncoded := dst }, .error e)
          | .ok src =>
            match snappyEncode P dst src.bytes with
            | .error e => ({ fc with bMarshaled := bm1, bEncoded := dst }, .error e)
            | .ok be =>
              match binaryWriteUint32 fc.f be.len with
              | (f1, some e) =>
                ({ fc with f := f1, bMarshaled := bm1, bEncoded := be },
                  .error (.wrap e "failed to write message length"))
              | (f1, none) =>
                match fileWrite f1 be with
                | (f2, some e) =>
                  ({ fc with f := f2, bMarshaled := bm1, bEncoded := be },
                    .error (.wrap e "failed to write message"))
                | (f2, none) => ({ fc with f := f2, bMarshaled := bm1, bEncoded := be }, .ok ())

/-! ## Sample primitives

A small instance of `Prims`, used to evaluate the model on concrete inputs. -/

/-- Sample record: the size it declares, the bytes its marshalling stores, and by how
much its reported count exceeds the declared size (0 for a record that reports the number
of bytes stored). -/
structure SampleRec where
  size : Nat
  body : List Byte
  excess : Nat
  deriving DecidableEq, Repr

/-- Count reported by the marshalling of a sample record. -/
def SampleRec.count (r : SampleRec) : Nat :=
  if r.excess = 0 then r.body.length else r.size + r.excess

/-- Sample block decoder: a block is the byte 0 followed by the content. -/
def sampleDecode : List Byte → Except String (List Byte)
  | [] => .error "snappy: corrupt input"
  | b :: rest => if b = 0 then .ok rest else .error "snappy: corrupt input"

/-- Sample primitives: the record stores `body` and reports `count`, a block is
`0 :: content`. -/
def samplePrims : Prims SampleRec where
  Size r := r.size
  marshal r := .ok (r.body, r.count)
  Unmarshal bs := .ok ⟨bs.length, bs, 0⟩
  encodeBlock src := 0 :: src
  decodeBlock := sampleDecode
  marshal_exact r out h := by
    simp only [Except.ok.injEq, Prod.mk.injEq, SampleRec.count] at h
    obtain ⟨h1, h2⟩ := h
    subst h1
    split at h2
    · exact h2
    · omega
  encodeBlock_le src := by simp only [List.length_cons]; omega

/-- A client whose four buffers are nil. -/
def bareClient (f : File) : fileClient :=
  { f := f, fSize := 0, lastLog := 0, bRead := Slice.nil, bDecoded := Slice.nil,
    bMarshaled := Slice.nil, bEncoded := Slice.nil }

/-- A clock reading far from the zero time, with a working offset query. -/
def sampleEnv : Env := ⟨100000000000, 100000000001, false⟩

/-! ## The frame at the current offset, stated on the file content

`frameRead` follows the description of `ReadNext` in the specification: it mentions
no buffer, no clock and no cached size.  `readTS_frame` relates `readTS` to it. -/

/-- Outcome of reading one frame at the current offset: the file afterwards and the
record or error. -/
def frameRead {R : Type} (P : Prims R) (f : File) : File × Except Err R :=
  let avail := f.remaining
  if avail.length = 0 then (⟨f.data, f.pos + 0⟩, .error .EOF)
  else if avail.length < 4 then
    (⟨f.data, f.pos + avail.length⟩, .error (.wrap .ErrUnexpectedEOF "failed to read message size"))
  else
    let L := beUint32 (avail.take 4)
    let payload := (avail.drop 4).take L
    let f2 : File := ⟨f.data, f.pos + 4 + payload.length⟩
    if payload.length < L then
      (f2, .error (.wrap (if payload.length = 0 then .EOF else .ErrUnexpectedEOF)
        "failed to read message"))
    else
      match P.decodeBlock payload with
      | .error e => (f2, .error (.wrap (.other e) "failed to decode message"))
      | .ok out =>
        match P.Unmarshal out with
        | .error e => (f2, .error (.wrap (.other e) "failed to unmarshal message"))
        | .ok ts => (f2, .ok ts)

/-! ## Auxiliary definitions -/

/-- The part of `readTS` after a complete length word `L` has been read: payload read,
decompression and unmarshalling, on the state `fc0` left by the progress report. -/
def readPayload {R : Type} (P : Prims R) (fc0 : fileClient) (logs : List Progress)
    (data : List Byte) (pos : Nat) (L : Nat) (b1 : Slice) :
    fileClient × List Progress × Except Err R :=
  let payload := (data.drop (pos + 4)).take L
  let f2 : File := ⟨data, pos + 4 + payload.length⟩
  if payload.length < L then
    ({ fc0 with f := f2, bRead := b1.store payload }, logs,
      .error (.wrap (if payload.length = 0 then .EOF else .ErrUnexpectedEOF)
        "failed to read message"))
  else
    match snappyDecode P ⟨fc0.bDecoded.arr, fc0.bDecoded.cap⟩ payload with
    | (d, some e) =>
      ({ fc0 with f := f2, bRead := b1.store payload, bDecoded := d }, logs,
        .error (.wrap e "failed to decode message"))
    | (d, none) =>
      match P.Unmarshal d.bytes with
      | .error e =>
        ({ fc0 with f := f2, bRead := b1.store payload, bDecoded := d }, logs,
          .error (.wrap (.other e) "failed to unmarshal message"))
      | .ok ts => ({ fc0 with f := f2, bRead := b1.store payload, bDecoded := d }, logs, .ok ts)

/-- The slice `bMarshaled` after the resize of lines 108-112. -/
def resizedMarshaled (b : Slice) (size : Nat) : Slice :=
  if b.cap ≥ size then ⟨b.arr, size⟩ else Slice.make size

/-- The slice `snappy.Encode` returns for destination `bEncoded[:cap]`, bound `n` and
block `enc`. -/
def encodedSlice (b : Slice) (n : Nat) (enc : List Byte) : Slice :=
  ⟨enc ++ (if b.cap < n then Slice.make n else ⟨b.arr, b.cap⟩).arr.drop enc.length, enc.length⟩

/-- Calls `writeTS` on the records in order; returns the last state and every result. -/
def writeAll {R : Type} (P : Prims R) : fileClient → List R → fileClient × List (Except Err Unit)
  | fc, [] => (fc, [])
  | fc, r :: rs =>
    ((writeAll P (writeTS P fc r).1 rs).1, (writeTS P fc r).2 :: (writeAll P (writeTS P fc r).1 rs).2)

/-- Calls `readTS` once per element of `envs`; returns the last state and every result. -/
def readMany {R : Type} (P : Prims R) : fileClient → List Env → fileClient × List (Except Err R)
  | fc, [] => (fc, [])
  | fc, env :: envs =>
    ((readMany P (readTS P env fc).1 envs).1,
      (readTS P env fc).2.2 :: (readMany P (readTS P env fc).1 envs).2)

/-- The frame of a record: length word and compressed block of its marshalled bytes. -/
def frameOf {R : Type} (P : Prims R) (r : R) : List Byte :=
  match P.marshal r with
  | .ok (out, _) => putUint32 (P.encodeBlock out).length ++ P.encodeBlock out
  | .error _ => []

/-- The frames of a list of records, concatenated. -/
def framesOf {R : Type} (P : Prims R) : List R → List Byte
  | [] => []
  | r :: rs => frameOf P r ++ framesOf P rs

/-- A sample record of 4 GiB, larger than a Snappy block may be. -/
def hugeRec : SampleRec := ⟨4294967296, List.replicate 4294967296 0, 0⟩

/-- States of the client reachable from `newFileClient` by calls of `readTS` and
`writeTS`. -/
inductive Reachable {R : Type} (P : Prims R) : fileClient → Prop where
  | init (f : File) (statFails : Bool) : Reachable P (newFileClient f statFails)
  | read (env : Env) (fc : fileClient) : Reachable P fc → Reachable P (readTS P env fc).1
  | write (ts : R) (fc : fileClient) : Reachable P fc → Reachable P (writeTS P fc ts).1

/-- Outcome of writing one frame at the current offset, stated on the file and the record
alone: the file afterwards and the result of `WriteNext`. -/
def frameWrite {R : Type} (P : Prims R) (f : File) (ts : R) : File × Except Err Unit :=
  match P.marshal ts with
  | .error e => (f, .error (.wrap (.other e) "failed to marshal message"))
  | .ok (out, n) =>
    if P.Size ts < out.length then (f, .error (.panic "index out of range"))
    else if n ≠ P.Size ts then (f, .error (.unexpectedSize (P.Size ts) n))
    else
      match MaxEncodedLen out.length with
      | none => (f, .error (.panic "snappy: decoded block is too large"))
      | some _ =>
        (f.write (putUint32 (P.encodeBlock out).length ++ P.encodeBlock out), .ok ())

/-- The client `fc` with its four reusable buffers replaced. -/
def withBuffers (fc : fileClient) (bRead bDecoded bMarshaled bEncoded : Slice) : fileClient :=
  { fc with bRead := bRead, bDecoded := bDecoded, bMarshaled := bMarshaled,
            bEncoded := bEncoded }

/-! ## Basic facts -/

theorem Slice.bytes_store (s : Slice) (bs : List Byte) (h : bs.length = s.len) :
    (s.store bs).bytes = bs := by
  simp [Slice.store, Slice.bytes, ← h]

theorem Slice.cap_store (s : Slice) (bs : List Byte) (h : bs.length ≤ s.cap) :
    (s.store bs).cap = s.cap := by
  simp only [Slice.store, Slice.cap, List.length_append, List.length_drop] at *
  omega

theorem File.remaining_mk (d : List Byte) (p : Nat) : (File.mk d p).remaining = d.drop p := rfl

theorem beUint32_putUint32 (n : Nat) : beUint32 (putUint32 n) = n % 4294967296 := by
  simp only [putUint32, beUint32]
  omega

theorem putUint32_length (n : Nat) : (putUint32 n).length = 4 := rfl

theorem beUint32_lt (bs : List Byte) : beUint32 bs < 4294967296 := by
  unfold beUint32
  split
  · rename_i b0 b1 b2 b3
    have h0 := b0.isLt
    have h1 := b1.isLt
    have h2 := b2.isLt
    have h3 := b3.isLt
    omega
  · decide

theorem resizeRead_ok (b : Slice) (size : Nat) :
    ∃ b1, resizeRead b size = .ok b1 ∧ b1.len = size ∧ size ≤ b1.cap ∧
      (b1.cap = b.cap ∨ (b.cap % 4294967296 < size ∧ b1.cap = size)) := by
  unfold resizeRead
  by_cases h : b.cap % 4294967296 ≥ size
  · have h2 : size ≤ b.cap := le_trans h (Nat.mod_le _ _)
    refine ⟨⟨b.arr, size⟩, ?_, rfl, h2, Or.inl rfl⟩
    simp [h, Slice.reslice, h2]
  · refine ⟨Slice.make size, ?_, rfl, ?_, Or.inr ⟨by omega, ?_⟩⟩
    · simp [h]
    · simp [Slice.make, Slice.cap]
    · simp [Slice.make, Slice.cap]

theorem resizeMarshaled_ok (b : Slice) (size : Nat) :
    ∃ b1, resizeMarshaled b size = .ok b1 ∧ b1.len = size ∧ size ≤ b1.cap ∧
      (b1.cap = b.cap ∨ (b.cap < size ∧ b1.cap = size)) := by
  unfold resizeMarshaled
  by_cases h : b.cap ≥ size
  · refine ⟨⟨b.arr, size⟩, ?_, rfl, h, Or.inl rfl⟩
    simp [h, Slice.reslice]
  · refine ⟨Slice.make size, ?_, rfl, ?_, Or.inr ⟨by omega, ?_⟩⟩
    · simp [h]
    · simp [Slice.make, Slice.cap]
    · simp [Slice.make, Slice.cap]

theorem reslice_cap (s : Slice) : s.reslice s.cap = .ok ⟨s.arr, s.cap⟩ := by
  simp [Slice.reslice]

theorem logProgress_fst (env : Env) (fc : fileClient) :
    (logProgress env fc).1 =
      { fc with lastLog := if env.sinceNow - fc.lastLog > tenSeconds then env.now
                           else fc.lastLog } := by
  simp only [logProgress]
  split_ifs <;> rfl

theorem logProgress_snd (env : Env) (fc : fileClient) :
    (logProgress env fc).2 =
      if env.sinceNow - fc.lastLog > tenSeconds ∧ fc.fSize ≠ 0 ∧ env.seekFails = false
      then [⟨fc.f.pos, fc.fSize⟩] else [] := by
  simp only [logProgress]
  split_ifs <;> simp_all

theorem snappyDecode_bytes {R : Type} (P : Prims R) (dst : Slice) (src : List Byte) :
    (∃ e, P.decodeBlock src = .error e ∧ snappyDecode P dst src = (Slice.nil, some (.other e))) ∨
    (∃ out d, P.decodeBlock src = .ok out ∧ snappyDecode P dst src = (d, none) ∧
      d.bytes = out ∧ d.len = out.length ∧
      ((out.length ≤ dst.len ∧ d.arr = out ++ dst.arr.drop out.length) ∨
       (dst.len < out.length ∧ d.arr = out))) := by
  unfold snappyDecode
  cases h : P.decodeBlock src with
  | error e => exact Or.inl ⟨e, rfl, rfl⟩
  | ok out =>
    right
    by_cases h2 : out.length ≤ dst.len
    · refine ⟨out, ⟨out ++ dst.arr.drop out.length, out.length⟩, rfl, ?_, ?_, rfl,
        Or.inl ⟨h2, rfl⟩⟩
      · simp only [h2, if_true]
      · simp [Slice.bytes]
    · refine ⟨out, ⟨out, out.length⟩, rfl, ?_, ?_, rfl, Or.inr ⟨by omega, rfl⟩⟩
      · simp only [h2, if_false]
      · simp [Slice.bytes]

theorem readFull_spec (f : File) (n : Nat) :
    f.readFull n = (⟨f.data, f.pos + (f.remaining.take n).length⟩, f.remaining.take n,
      if (f.remaining.take n).length = n then none
      else if (f.remaining.take n).length = 0 then some Err.EOF else some Err.ErrUnexpectedEOF) := by
  unfold File.readFull
  simp only
  split
  · rfl
  · split <;> rfl

theorem binaryReadUint32_spec (f : File) :
    binaryReadUint32 f =
      if 4 ≤ f.remaining.length then
        (⟨f.data, f.pos + 4⟩, .ok (beUint32 (f.remaining.take 4)))
      else if f.remaining.length = 0 then (⟨f.data, f.pos + 0⟩, .error .EOF)
      else (⟨f.data, f.pos + f.remaining.length⟩, .error .ErrUnexpectedEOF) := by
  unfold binaryReadUint32
  rw [readFull_spec]
  by_cases h4 : 4 ≤ f.remaining.length
  · have e : (f.remaining.take 4).length = 4 := by simp [List.length_take]; omega
    simp only [e, h4, if_true]
  · have e : (f.remaining.take 4).length = f.remaining.length := by
      simp [List.length_take]; omega
    have e2 : f.remaining.take 4 = f.remaining := List.take_of_length_le (by omega)
    by_cases h0 : f.remaining.length = 0
    · have : ¬ (0 = 4) := by decide
      simp [e2, h0, h4]
    · have hne : ¬ f.remaining.length = 4 := by omega
      simp only [e2, h0, h4, hne, if_false]

theorem readTS_of_empty {R : Type} (P : Prims R) (env : Env) (fc : fileClient)
    (h : fc.f.remaining.length = 0) :
    readTS P env fc =
      ({ (logProgress env fc).1 with f := ⟨fc.f.data, fc.f.pos + 0⟩ }, (logProgress env fc).2,
        .error .EOF) := by
  have hf : (logProgress env fc).1.f = fc.f := by rw [logProgress_fst]
  unfold readTS
  rcases hlp : logProgress env fc with ⟨fc0, logs⟩
  rw [hlp] at hf
  simp only at hf
  simp only [binaryReadUint32_spec, hf, h]
  simp

theorem readTS_of_short {R : Type} (P : Prims R) (env : Env) (fc : fileClient)
    (h0 : fc.f.remaining.length ≠ 0) (h4 : fc.f.remaining.length < 4) :
    readTS P env fc =
      ({ (logProgress env fc).1 with f := ⟨fc.f.data, fc.f.pos + fc.f.remaining.length⟩ },
        (logProgress env fc).2, .error (.wrap .ErrUnexpectedEOF "failed to read message size")) := by
  have hf : (logProgress env fc).1.f = fc.f := by rw [logProgress_fst]
  unfold readTS
  rcases hlp : logProgress env fc with ⟨fc0, logs⟩
  rw [hlp] at hf
  simp only at hf
  have h4n : ¬ 4 ≤ fc.f.remaining.length := by omega
  simp only [binaryReadUint32_spec, hf, h0, h4n, if_false]
  simp

theorem readTS_of_word {R : Type} (P : Prims R) (env : Env) (fc : fileClient)
    (h4 : 4 ≤ fc.f.remaining.length) :
    ∃ b1, resizeRead fc.bRead (beUint32 (fc.f.remaining.take 4)) = .ok b1 ∧
      readTS P env fc =
        readPayload P (logProgress env fc).1 (logProgress env fc).2 fc.f.data fc.f.pos
          (beUint32 (fc.f.remaining.take 4)) b1 := by
  have hf : (logProgress env fc).1.f = fc.f := by rw [logProgress_fst]
  have hb : (logProgress env fc).1.bRead = fc.bRead := by rw [logProgress_fst]
  obtain ⟨b1, hb1, hlen, hcap, -⟩ := resizeRead_ok fc.bRead (beUint32 (fc.f.remaining.take 4))
  refine ⟨b1, hb1, ?_⟩
  unfold readTS readPayload
  rcases hlp : logProgress env fc with ⟨fc0, logs⟩
  rw [hlp] at hf hb
  simp only at hf hb
  simp only [binaryReadUint32_spec, hf, hb, h4, if_true, hb1, readFull_spec, File.remaining_mk,
    hlen, reslice_cap]
  generalize hL : beUint32 (fc.f.remaining.take 4) = L at *
  have hple : (List.take L (List.drop (fc.f.pos + 4) fc.f.data)).length ≤ L := by
    simp [List.length_take]
  by_cases hlt : (List.take L (List.drop (fc.f.pos + 4) fc.f.data)).length < L
  · have hne : ¬ (List.take L (List.drop (fc.f.pos + 4) fc.f.data)).length = L := by omega
    by_cases hz : (List.take L (List.drop (fc.f.pos + 4) fc.f.data)).length = 0
    · have h0L : 0 < L := by omega
      have h0n : ¬ 0 = L := by omega
      simp only [hz, h0L, h0n, if_true, if_false]
    · simp only [hlt, hne, hz, if_true, if_false]
  · have heq : (List.take L (List.drop (fc.f.pos + 4) fc.f.data)).length = L := by omega
    have hbytes : (b1.store (List.take L (List.drop (fc.f.pos + 4) fc.f.data))).bytes
        = List.take L (List.drop (fc.f.pos + 4) fc.f.data) :=
      Slice.bytes_store _ _ (by omega)
    simp only [heq, if_true, lt_irrefl, if_false, hbytes]

theorem readPayload_frame {R : Type} (P : Prims R) (fc0 : fileClient) (logs : List Progress)
    (f : File) (b1 : Slice) (h4 : 4 ≤ f.remaining.length) :
    ((readPayload P fc0 logs f.data f.pos (beUint32 (f.remaining.take 4)) b1).1.f,
      (readPayload P fc0 logs f.data f.pos (beUint32 (f.remaining.take 4)) b1).2.2)
      = frameRead P f := by
  have h0 : ¬ f.remaining.length = 0 := by omega
  have h4n : ¬ f.remaining.length < 4 := by omega
  have hd : List.drop 4 f.remaining = List.drop (f.pos + 4) f.data := by
    simp only [File.remaining, List.drop_drop]
  simp only [readPayload, frameRead, h0, h4n, if_false, hd]
  split
  · rfl
  · rcases snappyDecode_bytes P ⟨fc0.bDecoded.arr, fc0.bDecoded.cap⟩
      (List.take (beUint32 (List.take 4 f.remaining)) (List.drop (f.pos + 4) f.data))
      with ⟨e, he, hs⟩ | ⟨out, d, ho, hs, hb, -⟩
    · simp only [hs, he]
    · simp only [hs, ho, hb]
      cases P.Unmarshal out <;> rfl

theorem readTS_frame {R : Type} (P : Prims R) (env : Env) (fc : fileClient) :
    ((readTS P env fc).1.f, (readTS P env fc).2.2) = frameRead P fc.f := by
  by_cases h4 : 4 ≤ fc.f.remaining.length
  · obtain ⟨b1, -, h⟩ := readTS_of_word P env fc h4
    rw [h]
    exact readPayload_frame P _ _ fc.f b1 h4
  · by_cases h0 : fc.f.remaining.length = 0
    · rw [readTS_of_empty P env fc h0]
      simp only [frameRead, h0, if_true]
    · rw [readTS_of_short P env fc h0 (by omega)]
      have h4n : fc.f.remaining.length < 4 := by omega
      simp only [frameRead, h0, h4n, if_true, if_false]

theorem readPayload_logs {R : Type} (P : Prims R) (fc0 : fileClient) (logs : List Progress)
    (data : List Byte) (pos L : Nat) (b1 : Slice) :
    (readPayload P fc0 logs data pos L b1).2.1 = logs ∧
    (readPayload P fc0 logs data pos L b1).1.lastLog = fc0.lastLog ∧
    (readPayload P fc0 logs data pos L b1).1.fSize = fc0.fSize ∧
    (readPayload P fc0 logs data pos L b1).1.bMarshaled = fc0.bMarshaled ∧
    (readPayload P fc0 logs data pos L b1).1.bEncoded = fc0.bEncoded := by
  unfold readPayload
  simp only
  split
  · exact ⟨rfl, rfl, rfl, rfl, rfl⟩
  · split
    · exact ⟨rfl, rfl, rfl, rfl, rfl⟩
    · split <;> exact ⟨rfl, rfl, rfl, rfl, rfl⟩

theorem readTS_logs {R : Type} (P : Prims R) (env : Env) (fc : fileClient) :
    (readTS P env fc).2.1 = (logProgress env fc).2 ∧
    (readTS P env fc).1.lastLog = (logProgress env fc).1.lastLog ∧
    (readTS P env fc).1.fSize = fc.fSize ∧
    (readTS P env fc).1.bMarshaled = fc.bMarshaled ∧
    (readTS P env fc).1.bEncoded = fc.bEncoded := by
  have hfs : (logProgress env fc).1.fSize = fc.fSize := by rw [logProgress_fst]
  have hbm : (logProgress env fc).1.bMarshaled = fc.bMarshaled := by rw [logProgress_fst]
  have hbe : (logProgress env fc).1.bEncoded = fc.bEncoded := by rw [logProgress_fst]
  by_cases h4 : 4 ≤ fc.f.remaining.length
  · obtain ⟨b1, -, h⟩ := readTS_of_word P env fc h4
    rw [h]
    obtain ⟨h1, h2, h3, h5, h6⟩ := readPayload_logs P (logProgress env fc).1 (logProgress env fc).2
      fc.f.data fc.f.pos (beUint32 (fc.f.remaining.take 4)) b1
    exact ⟨h1, h2, h3.trans hfs, h5.trans hbm, h6.trans hbe⟩
  · by_cases h0 : fc.f.remaining.length = 0
    · rw [readTS_of_empty P env fc h0]
      exact ⟨rfl, rfl, hfs, hbm, hbe⟩
    · rw [readTS_of_short P env fc h0 (by omega)]
      exact ⟨rfl, rfl, hfs, hbm, hbe⟩

theorem resizeMarshaled_eq (b : Slice) (size : Nat) :
    resizeMarshaled b size = .ok (if b.cap ≥ size then ⟨b.arr, size⟩ else Slice.make size) := by
  unfold resizeMarshaled
  by_cases h : b.cap ≥ size
  · have h2 : size ≤ b.cap := h
    simp [h, Slice.reslice, h2]
  · simp [h]

theorem resizedMarshaled_len (b : Slice) (size : Nat) : (resizedMarshaled b size).len = size := by
  unfold resizedMarshaled
  split <;> rfl

theorem writeTS_of_marshal_error {R : Type} (P : Prims R) (fc : fileClient) (ts : R) (e : String)
    (hm : P.marshal ts = .error e) :
    writeTS P fc ts = ({ fc with bMarshaled := resizedMarshaled fc.bMarshaled (P.Size ts) },
      .error (.wrap (.other e) "failed to marshal message")) := by
  unfold writeTS
  simp only [resizeMarshaled_eq, MarshalTo, hm, resizedMarshaled]

theorem writeTS_of_overrun {R : Type} (P : Prims R) (fc : fileClient) (ts : R) (out : List Byte)
    (n : Nat) (hm : P.marshal ts = .ok (out, n)) (hlen : P.Size ts < out.length) :
    writeTS P fc ts = ({ fc with bMarshaled := resizedMarshaled fc.bMarshaled (P.Size ts) },
      .error (.panic "index out of range")) := by
  have h : ¬ out.length ≤ (resizedMarshaled fc.bMarshaled (P.Size ts)).len := by
    rw [resizedMarshaled_len]; omega
  unfold writeTS
  simp only [resizeMarshaled_eq, MarshalTo, hm]
  rw [show (if fc.bMarshaled.cap ≥ P.Size ts then (⟨fc.bMarshaled.arr, P.Size ts⟩ : Slice)
    else Slice.make (P.Size ts)) = resizedMarshaled fc.bMarshaled (P.Size ts) from rfl]
  simp only [h, if_false]

theorem writeTS_of_mismatch {R : Type} (P : Prims R) (fc : fileClient) (ts : R)
    (out : List Byte) (n : Nat) (hm : P.marshal ts = .ok (out, n))
    (hlen : out.length ≤ P.Size ts) (hne : n ≠ P.Size ts) :
    writeTS P fc ts =
      ({ fc with bMarshaled := (resizedMarshaled fc.bMarshaled (P.Size ts)).store out },
        .error (.unexpectedSize (P.Size ts) n)) := by
  have h : out.length ≤ (resizedMarshaled fc.bMarshaled (P.Size ts)).len := by
    rw [resizedMarshaled_len]; exact hlen
  have hne1 : P.Size ts ≠ n := fun h => hne h.symm
  unfold writeTS
  simp only [resizeMarshaled_eq, MarshalTo, hm]
  rw [show (if fc.bMarshaled.cap ≥ P.Size ts then (⟨fc.bMarshaled.arr, P.Size ts⟩ : Slice)
    else Slice.make (P.Size ts)) = resizedMarshaled fc.bMarshaled (P.Size ts) from rfl]
  simp only [h, if_true, hne1, ne_eq, not_false_eq_true]

theorem reslice_store (b : Slice) (out : List Byte) :
    (b.store out).reslice out.length = .ok ⟨out ++ b.arr.drop out.length, out.length⟩ := by
  simp [Slice.reslice, Slice.store, Slice.cap]

theorem writeTS_of_too_large {R : Type} (P : Prims R) (fc : fileClient) (ts : R)
    (out : List Byte) (hm : P.marshal ts = .ok (out, P.Size ts))
    (hn : MaxEncodedLen out.length = none) :
    writeTS P fc ts =
      ({ fc with bMarshaled := (resizedMarshaled fc.bMarshaled (P.Size ts)).store out,
                 bEncoded := ⟨fc.bEncoded.arr, fc.bEncoded.cap⟩ },
        .error (.panic "snappy: decoded block is too large")) := by
  have hlen : out.length = P.Size ts := P.marshal_exact ts out hm
  rw [← hlen] at hm ⊢
  have h : out.length ≤ (resizedMarshaled fc.bMarshaled out.length).len := by
    rw [resizedMarshaled_len]
  have hb : (⟨out ++ List.drop out.length (resizedMarshaled fc.bMarshaled out.length).arr,
      out.length⟩ : Slice).bytes = out := by simp [Slice.bytes]
  unfold writeTS
  simp only [resizeMarshaled_eq, MarshalTo, hm, ← hlen]
  rw [show (if fc.bMarshaled.cap ≥ out.length then (⟨fc.bMarshaled.arr, out.length⟩ : Slice)
    else Slice.make out.length) = resizedMarshaled fc.bMarshaled out.length from rfl]
  simp only [h, if_true, ne_eq, not_true_eq_false, if_false, reslice_cap,
    reslice_store, snappyEncode, hb, hn]

theorem writeTS_of_fit {R : Type} (P : Prims R) (fc : fileClient) (ts : R)
    (out : List Byte) (n : Nat) (hm : P.marshal ts = .ok (out, P.Size ts))
    (hn : MaxEncodedLen out.length = some n) :
    writeTS P fc ts =
      ({ fc with f := (fc.f.write (putUint32 (P.encodeBlock out).length)).write (P.encodeBlock out),
                 bMarshaled := (resizedMarshaled fc.bMarshaled (P.Size ts)).store out,
                 bEncoded := encodedSlice fc.bEncoded n (P.encodeBlock out) },
        .ok ()) := by
  have hlen : out.length = P.Size ts := P.marshal_exact ts out hm
  rw [← hlen] at hm ⊢
  have h : out.length ≤ (resizedMarshaled fc.bMarshaled out.length).len := by
    rw [resizedMarshaled_len]
  have hb : (⟨out ++ List.drop out.length (resizedMarshaled fc.bMarshaled out.length).arr,
      out.length⟩ : Slice).bytes = out := by simp [Slice.bytes]
  have he : (encodedSlice fc.bEncoded n (P.encodeBlock out)).bytes = P.encodeBlock out := by
    simp [Slice.bytes, encodedSlice]
  unfold writeTS
  simp only [resizeMarshaled_eq, MarshalTo, hm, ← hlen]
  rw [show (if fc.bMarshaled.cap ≥ out.length then (⟨fc.bMarshaled.arr, out.length⟩ : Slice)
    else Slice.make out.length) = resizedMarshaled fc.bMarshaled out.length from rfl]
  simp only [h, if_true, ne_eq, not_true_eq_false, if_false, reslice_cap,
    reslice_store, snappyEncode, hb, hn, binaryWriteUint32, fileWrite]
  rw [show (⟨P.encodeBlock out ++ List.drop (P.encodeBlock out).length
      (if fc.bEncoded.cap < n then Slice.make n else ⟨fc.bEncoded.arr, fc.bEncoded.cap⟩).arr,
      (P.encodeBlock out).length⟩ : Slice) = encodedSlice fc.bEncoded n (P.encodeBlock out) from rfl]
  rw [he]

theorem File.write_write (f : File) (a b : List Byte) :
    (f.write a).write b = f.write (a ++ b) := by
  have hX : (f.data.take f.pos ++ List.replicate (f.pos - f.data.length) (0 : Byte)).length
      = f.pos := by
    simp only [List.length_append, List.length_take, List.length_replicate]
    omega
  unfold File.write
  simp only [File.mk.injEq]
  refine ⟨?_, by rw [List.length_append, Nat.add_assoc]⟩
  generalize f.data.take f.pos ++ List.replicate (f.pos - f.data.length) (0 : Byte) = X at hX ⊢
  have hXa : (X ++ a).length = f.pos + a.length := by rw [List.length_append, hX]
  have hlen : (X ++ a ++ List.drop (f.pos + a.length) f.data).length
      = f.pos + a.length + (f.data.length - (f.pos + a.length)) := by
    rw [List.length_append, hXa, List.length_drop]
  have htake : List.take (f.pos + a.length) (X ++ a ++ List.drop (f.pos + a.length) f.data)
      = X ++ a := List.take_left' hXa
  have hdrop : List.drop (f.pos + a.length + b.length)
      (X ++ a ++ List.drop (f.pos + a.length) f.data)
      = List.drop (f.pos + (a ++ b).length) f.data := by
    rw [← hXa, List.drop_append, List.drop_drop, hXa, List.length_append]
    congr 1
    omega
  have hrep : f.pos + a.length - (X ++ a ++ List.drop (f.pos + a.length) f.data).length = 0 := by
    rw [hlen]; omega
  rw [htake, hdrop, hrep]
  simp

theorem File.write_at_end (f : File) (a : List Byte) (h : f.pos = f.data.length) :
    (f.write a).data = f.data ++ a := by
  unfold File.write
  simp only [h, List.take_length, Nat.sub_self, List.replicate_zero, List.append_nil]
  rw [List.drop_of_length_le (by omega)]
  simp

theorem MaxEncodedLen_some (m n : Nat) (h : MaxEncodedLen m = some n) :
    n = 32 + m + m / 6 ∧ n ≤ 4294967295 := by
  unfold MaxEncodedLen at h
  split at h
  · cases h
  · simp only at h
    split at h
    · cases h
    · cases h
      exact ⟨rfl, by omega⟩

/-- The five outcomes of `writeTS`, by what `MarshalTo` and `MaxEncodedLen` return. -/
theorem writeTS_cases {R : Type} (P : Prims R) (ts : R) :
    (∃ e, P.marshal ts = .error e) ∨
    (∃ out n, P.marshal ts = .ok (out, n) ∧ P.Size ts < out.length) ∨
    (∃ out n, P.marshal ts = .ok (out, n) ∧ out.length ≤ P.Size ts ∧ n ≠ P.Size ts) ∨
    (∃ out, P.marshal ts = .ok (out, P.Size ts) ∧ out.length = P.Size ts ∧
      MaxEncodedLen out.length = none) ∨
    (∃ out n, P.marshal ts = .ok (out, P.Size ts) ∧ out.length = P.Size ts ∧
      MaxEncodedLen out.length = some n) := by
  cases hm : P.marshal ts with
  | error e => exact Or.inl ⟨e, rfl⟩
  | ok v =>
    obtain ⟨out, n⟩ := v
    by_cases hgt : P.Size ts < out.length
    · exact Or.inr (Or.inl ⟨out, n, rfl, hgt⟩)
    · by_cases hne : n = P.Size ts
      · subst hne
        have hlen := P.marshal_exact ts out hm
        cases hn : MaxEncodedLen out.length with
        | none => exact Or.inr (Or.inr (Or.inr (Or.inl ⟨out, rfl, hlen, hn⟩)))
        | some k => exact Or.inr (Or.inr (Or.inr (Or.inr ⟨out, k, rfl, hlen, hn⟩)))
      · exact Or.inr (Or.inr (Or.inl ⟨out, n, rfl, by omega, hne⟩))

theorem writeTS_ok_inv {R : Type} (P : Prims R) (fc : fileClient) (ts : R)
    (h : (writeTS P fc ts).2 = .ok ()) :
    ∃ out n, P.marshal ts = .ok (out, P.Size ts) ∧ out.length = P.Size ts ∧
      MaxEncodedLen out.length = some n := by
  rcases writeTS_cases P ts with ⟨e, hm⟩ | ⟨out, n, hm, hgt⟩ | ⟨out, n, hm, hle, hne⟩ |
    ⟨out, hm, hlen, hn⟩ | ⟨out, n, hm, hlen, hn⟩
  · rw [writeTS_of_marshal_error P fc ts e hm] at h; cases h
  · rw [writeTS_of_overrun P fc ts out n hm hgt] at h; cases h
  · rw [writeTS_of_mismatch P fc ts out n hm hle hne] at h; cases h
  · rw [writeTS_of_too_large P fc ts out hm hn] at h; cases h
  · exact ⟨out, n, hm, hlen, hn⟩

/-- Shape of a successful `writeTS`: the frame written at the current offset. -/
theorem writeTS_frame_bytes {R : Type} (P : Prims R) (fc : fileClient) (ts : R)
    (h : (writeTS P fc ts).2 = .ok ()) :
    ∃ out, P.marshal ts = .ok (out, P.Size ts) ∧
      (writeTS P fc ts).1.f
        = fc.f.write (putUint32 (P.encodeBlock out).length ++ P.encodeBlock out) ∧
      beUint32 (putUint32 (P.encodeBlock out).length) = (P.encodeBlock out).length ∧
      (writeTS P fc ts).1.f.pos = fc.f.pos + (4 + (P.encodeBlock out).length) ∧
      (fc.f.pos = fc.f.data.length →
        (writeTS P fc ts).1.f.data
          = fc.f.data ++ (putUint32 (P.encodeBlock out).length ++ P.encodeBlock out)) := by
  obtain ⟨out, n, hm, hlen, hn⟩ := writeTS_ok_inv P fc ts h
  obtain ⟨hn1, hn2⟩ := MaxEncodedLen_some _ _ hn
  have hle := P.encodeBlock_le out
  have hf : (writeTS P fc ts).1.f
      = fc.f.write (putUint32 (P.encodeBlock out).length ++ P.encodeBlock out) := by
    rw [writeTS_of_fit P fc ts out n hm hn]
    exact File.write_write _ _ _
  refine ⟨out, hm, hf, ?_, ?_, ?_⟩
  · rw [beUint32_putUint32]
    exact Nat.mod_eq_of_lt (by omega)
  · rw [hf]
    simp only [File.write, List.length_append, putUint32_length]
  · intro hend
    rw [hf]
    exact File.write_at_end _ _ hend

/-! ## Properties of the specification -/

/-- C2: when `writeTS` succeeds, the file afterwards is the file before with the 4-byte
big-endian word `L` and then the compressed block written at the current offset, where
`L` is exactly the length of that block (the word decodes to the block length, without
truncation); the offset moves by `4 + L`, and at end of data the content grows by exactly
these bytes. -/
theorem writeTS_frame_exact {R : Type} (P : Prims R) (fc : fileClient) (ts : R)
    (h : (writeTS P fc ts).2 = .ok ()) :
    ∃ out, P.marshal ts = .ok (out, P.Size ts) ∧
      (writeTS P fc ts).1.f
        = fc.f.write (putUint32 (P.encodeBlock out).length ++ P.encodeBlock out) ∧
      beUint32 (putUint32 (P.encodeBlock out).length) = (P.encodeBlock out).length ∧
      (writeTS P fc ts).1.f.pos = fc.f.pos + (4 + (P.encodeBlock out).length) ∧
      (fc.f.pos = fc.f.data.length →
        (writeTS P fc ts).1.f.data
          = fc.f.data ++ (putUint32 (P.encodeBlock out).length ++ P.encodeBlock out)) :=
  writeTS_frame_bytes P fc ts h

/-- Witness for C2: a 2-byte sample record written to the empty file. -/
theorem writeTS_frame_exact_witness :
    (writeTS samplePrims (bareClient ⟨[], 0⟩) ⟨2, [7, 9], 0⟩).2 = .ok () ∧
    (writeTS samplePrims (bareClient ⟨[], 0⟩) ⟨2, [7, 9], 0⟩).1.f
      = ⟨[0, 0, 0, 3, 0, 7, 9], 7⟩ ∧
    ∃ out, samplePrims.marshal ⟨2, [7, 9], 0⟩ = .ok (out, samplePrims.Size ⟨2, [7, 9], 0⟩) ∧
      (writeTS samplePrims (bareClient ⟨[], 0⟩) ⟨2, [7, 9], 0⟩).1.f
        = (bareClient ⟨[], 0⟩).f.write
            (putUint32 (samplePrims.encodeBlock out).length ++ samplePrims.encodeBlock out) ∧
      beUint32 (putUint32 (samplePrims.encodeBlock out).length)
        = (samplePrims.encodeBlock out).length ∧
      (writeTS samplePrims (bareClient ⟨[], 0⟩) ⟨2, [7, 9], 0⟩).1.f.pos
        = (bareClient ⟨[], 0⟩).f.pos + (4 + (samplePrims.encodeBlock out).length) ∧
      ((bareClient ⟨[], 0⟩).f.pos = (bareClient ⟨[], 0⟩).f.data.length →
        (writeTS samplePrims (bareClient ⟨[], 0⟩) ⟨2, [7, 9], 0⟩).1.f.data
          = (bareClient ⟨[], 0⟩).f.data
            ++ (putUint32 (samplePrims.encodeBlock out).length ++ samplePrims.encodeBlock out)) :=
  ⟨rfl, rfl, writeTS_frame_exact samplePrims (bareClient ⟨[], 0⟩) ⟨2, [7, 9], 0⟩ rfl⟩

/-- C3: with no byte left at the current offset `readTS` returns the bare `io.EOF`; with
one, two or three bytes left it returns `io.ErrUnexpectedEOF` wrapped with
"failed to read message size", which is not the bare `io.EOF`. -/
theorem readTS_length_word_eof {R : Type} (P : Prims R) (env : Env) (fc : fileClient) :
    (fc.f.remaining.length = 0 → (readTS P env fc).2.2 = .error .EOF) ∧
    (1 ≤ fc.f.remaining.length ∧ fc.f.remaining.length ≤ 3 →
      (readTS P env fc).2.2 = .error (.wrap .ErrUnexpectedEOF "failed to read message size") ∧
      (readTS P env fc).2.2 ≠ .error .EOF) := by
  constructor
  · intro h0
    rw [readTS_of_empty P env fc h0]
  · rintro ⟨h1, h3⟩
    rw [readTS_of_short P env fc (by omega) (by omega)]
    exact ⟨rfl, by simp⟩

/-- Witness for C3: the empty file, and a file that ends after two bytes. -/
theorem readTS_length_word_eof_witness :
    (readTS samplePrims sampleEnv (bareClient ⟨[], 0⟩)).2.2 = .error .EOF ∧
    (readTS samplePrims sampleEnv (bareClient ⟨[0, 0], 0⟩)).2.2
      = .error (.wrap .ErrUnexpectedEOF "failed to read message size") ∧
    (readTS samplePrims sampleEnv (bareClient ⟨[0, 0], 0⟩)).2.2 ≠ .error .EOF :=
  ⟨(readTS_length_word_eof samplePrims sampleEnv (bareClient ⟨[], 0⟩)).1 (by decide),
   (readTS_length_word_eof samplePrims sampleEnv (bareClient ⟨[0, 0], 0⟩)).2 (by decide)⟩

/-- C4: when the bytes left at the current offset are a complete length word `L`
followed by `k < L` payload bytes (so `L >= 1`), `readTS` returns the cause of the short read (`io.EOF`
for `k = 0`, `io.ErrUnexpectedEOF` otherwise) wrapped with "failed to read message", which
is not the bare `io.EOF`. -/
theorem readTS_truncated_payload {R : Type} (P : Prims R) (env : Env) (fc : fileClient)
    (L : Nat) (payload : List Byte) (hL : L < 4294967296)
    (hk : payload.length < L) (hf : fc.f.remaining = putUint32 L ++ payload) :
    (readTS P env fc).2.2
      = .error (.wrap (if payload.length = 0 then .EOF else .ErrUnexpectedEOF)
          "failed to read message") ∧
    (readTS P env fc).2.2 ≠ .error .EOF := by
  have h4 : 4 ≤ fc.f.remaining.length := by
    rw [hf, List.length_append, putUint32_length]; omega
  have hw : beUint32 (fc.f.remaining.take 4) = L := by
    rw [hf, List.take_left' (putUint32_length L), beUint32_putUint32]
    exact Nat.mod_eq_of_lt hL
  have hp : List.take L (List.drop 4 fc.f.remaining) = payload := by
    rw [hf, List.drop_left' (putUint32_length L)]
    exact List.take_of_length_le (by omega)
  have hfr := readTS_frame P env fc
  have hres : (readTS P env fc).2.2 = (frameRead P fc.f).2 := by rw [← hfr]
  have h0 : ¬ fc.f.remaining.length = 0 := by omega
  have h4n : ¬ fc.f.remaining.length < 4 := by omega
  rw [hres]
  simp only [frameRead, h0, h4n, if_false, hw, hp, hk, if_true]
  exact ⟨trivial, by simp⟩

/-- Witness for C4: the length word `0x00000005` followed by three bytes. -/
theorem readTS_truncated_payload_witness :
    (readTS samplePrims sampleEnv (bareClient ⟨[0, 0, 0, 5, 1, 2, 3], 0⟩)).2.2
      = .error (.wrap (if [(1 : Byte), 2, 3].length = 0 then .EOF else .ErrUnexpectedEOF)
          "failed to read message") ∧
    (readTS samplePrims sampleEnv (bareClient ⟨[0, 0, 0, 5, 1, 2, 3], 0⟩)).2.2 ≠ .error .EOF :=
  readTS_truncated_payload samplePrims sampleEnv (bareClient ⟨[0, 0, 0, 5, 1, 2, 3], 0⟩) 5
    [1, 2, 3] (by decide) (by decide) (by decide)

/-- C5: when the `MarshalTo` call made by `writeTS` (on `bMarshaled` resized to `Size()`
bytes) reports a count different from `Size()`, lower or higher, `writeTS` returns the
"unexpected size" error carrying `Size()` and that count, and the file, content and
offset, is what it was before the call. -/
theorem writeTS_size_mismatch {R : Type} (P : Prims R) (fc : fileClient) (ts : R)
    (dst dst1 : Slice) (n : Nat)
    (hr : resizeMarshaled fc.bMarshaled (P.Size ts) = .ok dst)
    (hm : MarshalTo P ts dst = (dst1, .ok n)) (hne : n ≠ P.Size ts) :
    (writeTS P fc ts).2 = .error (.unexpectedSize (P.Size ts) n) ∧
    (writeTS P fc ts).1.f = fc.f := by
  rw [resizeMarshaled_eq] at hr
  have hdst : dst = resizedMarshaled fc.bMarshaled (P.Size ts) := by
    cases hr; rfl
  have hdl : dst.len = P.Size ts := by rw [hdst, resizedMarshaled_len]
  unfold MarshalTo at hm
  cases hmo : P.marshal ts with
  | error e => rw [hmo] at hm; cases hm
  | ok v =>
    obtain ⟨out, k⟩ := v
    rw [hmo] at hm
    simp only at hm
    by_cases hle : out.length ≤ dst.len
    · simp only [hle, if_true, Prod.mk.injEq, Except.ok.injEq] at hm
      obtain ⟨-, hn⟩ := hm
      subst hn
      rw [writeTS_of_mismatch P fc ts out k hmo (by omega) hne]
      exact ⟨rfl, rfl⟩
    · simp only [hle, if_false, Prod.mk.injEq] at hm
      obtain ⟨-, hn⟩ := hm
      cases hn

/-- Witness for C5: a sample record that declares 3 bytes, stores 3 and reports 5, and
one that declares 3 bytes, stores 2 and reports 2. -/
theorem writeTS_size_mismatch_witness :
    ((writeTS samplePrims (bareClient ⟨[1, 2], 2⟩) ⟨3, [7, 9, 1], 2⟩).2
        = .error (.unexpectedSize 3 5) ∧
      (writeTS samplePrims (bareClient ⟨[1, 2], 2⟩) ⟨3, [7, 9, 1], 2⟩).1.f = ⟨[1, 2], 2⟩) ∧
    ((writeTS samplePrims (bareClient ⟨[1, 2], 2⟩) ⟨3, [7, 9], 0⟩).2
        = .error (.unexpectedSize 3 2) ∧
      (writeTS samplePrims (bareClient ⟨[1, 2], 2⟩) ⟨3, [7, 9], 0⟩).1.f = ⟨[1, 2], 2⟩) :=
  ⟨writeTS_size_mismatch samplePrims (bareClient ⟨[1, 2], 2⟩) ⟨3, [7, 9, 1], 2⟩
      (Slice.make 3) ⟨[7, 9, 1], 3⟩ 5 rfl rfl (by decide),
    writeTS_size_mismatch samplePrims (bareClient ⟨[1, 2], 2⟩) ⟨3, [7, 9], 0⟩
      (Slice.make 3) ⟨[7, 9, 0], 3⟩ 2 rfl rfl (by decide)⟩

theorem writeTS_step {R : Type} (P : Prims R) (fc : fileClient) (r : R) (out : List Byte)
    (hm : P.marshal r = .ok (out, P.Size r)) (hlen : out.length = P.Size r)
    (hfit : 32 + P.Size r + P.Size r / 6 ≤ 4294967295)
    (hend : fc.f.pos = fc.f.data.length) :
    (writeTS P fc r).2 = .ok () ∧
    (writeTS P fc r).1.f.data = fc.f.data ++ frameOf P r ∧
    (writeTS P fc r).1.f.pos = (writeTS P fc r).1.f.data.length := by
  have hn : MaxEncodedLen out.length = some (32 + out.length + out.length / 6) := by
    unfold MaxEncodedLen
    have h1 : ¬ out.length > 4294967295 := by omega
    have h2 : ¬ 32 + out.length + out.length / 6 > 4294967295 := by rw [hlen]; omega
    simp only [h1, h2, if_false]
  have hok : (writeTS P fc r).2 = .ok () := by rw [writeTS_of_fit P fc r out _ hm hn]
  obtain ⟨out1, hm1, -, -, hpos, hdata⟩ := writeTS_frame_bytes P fc r hok
  rw [hm] at hm1
  cases hm1
  have hfr : frameOf P r = putUint32 (P.encodeBlock out).length ++ P.encodeBlock out := by
    simp only [frameOf, hm]
  refine ⟨hok, ?_, ?_⟩
  · rw [hfr]; exact hdata hend
  · rw [hpos, hdata hend, hend]
    simp only [List.length_append, putUint32_length]

theorem readTS_step {R : Type} (P : Prims R) (env : Env) (fc : fileClient) (r : R)
    (out rest : List Byte)
    (hdec : ∀ src, P.decodeBlock (P.encodeBlock src) = .ok src)
    (hm : P.marshal r = .ok (out, P.Size r)) (hlen : out.length = P.Size r)
    (hun : P.Unmarshal out = .ok r)
    (hfit : 32 + P.Size r + P.Size r / 6 ≤ 4294967295)
    (hf : fc.f.remaining = frameOf P r ++ rest) :
    (readTS P env fc).2.2 = .ok r ∧ (readTS P env fc).1.f.remaining = rest := by
  have hle := P.encodeBlock_le out
  have hfr : frameOf P r = putUint32 (P.encodeBlock out).length ++ P.encodeBlock out := by
    simp only [frameOf, hm]
  rw [hfr, List.append_assoc] at hf
  have h4 : 4 ≤ fc.f.remaining.length := by
    rw [hf, List.length_append, putUint32_length]; omega
  have hw : beUint32 (fc.f.remaining.take 4) = (P.encodeBlock out).length := by
    rw [hf, List.take_left' (putUint32_length _), beUint32_putUint32]
    exact Nat.mod_eq_of_lt (by omega)
  have hp : List.take (P.encodeBlock out).length (List.drop 4 fc.f.remaining)
      = P.encodeBlock out := by
    rw [hf, List.drop_left' (putUint32_length _)]
    exact List.take_left' rfl
  have h0 : ¬ fc.f.remaining.length = 0 := by omega
  have h4n : ¬ fc.f.remaining.length < 4 := by omega
  have hfrm := readTS_frame P env fc
  have hval : frameRead P fc.f
      = (⟨fc.f.data, fc.f.pos + 4 + (P.encodeBlock out).length⟩, .ok r) := by
    simp only [frameRead, h0, h4n, if_false, hw, hp, lt_irrefl, hdec, hun]
  rw [hval] at hfrm
  have h1 : (readTS P env fc).1.f = ⟨fc.f.data, fc.f.pos + 4 + (P.encodeBlock out).length⟩ :=
    congrArg Prod.fst hfrm
  have h2 : (readTS P env fc).2.2 = .ok r := congrArg Prod.snd hfrm
  refine ⟨h2, ?_⟩
  rw [h1, File.remaining_mk, Nat.add_assoc, ← List.drop_drop]
  change List.drop (4 + (P.encodeBlock out).length) fc.f.remaining = rest
  rw [hf, ← List.append_assoc]
  exact List.drop_left' (by rw [List.length_append, putUint32_length])

theorem writeAll_spec {R : Type} (P : Prims R) (rs : List R) :
    ∀ fc : fileClient,
      (∀ r ∈ rs, ∃ out, P.marshal r = .ok (out, P.Size r) ∧ out.length = P.Size r) →
      (∀ r ∈ rs, 32 + P.Size r + P.Size r / 6 ≤ 4294967295) →
      fc.f.pos = fc.f.data.length →
      (writeAll P fc rs).2 = rs.map (fun _ => .ok ()) ∧
      (writeAll P fc rs).1.f.data = fc.f.data ++ framesOf P rs := by
  induction rs with
  | nil => intro fc _ _ _; simp [writeAll, framesOf]
  | cons r rs ih =>
    intro fc hmar hfit hend
    obtain ⟨out, hm, hlen⟩ := hmar r (List.mem_cons_self _ _)
    obtain ⟨hok, hdata, hpos⟩ :=
      writeTS_step P fc r out hm hlen (hfit r (List.mem_cons_self _ _)) hend
    obtain ⟨ih1, ih2⟩ := ih (writeTS P fc r).1
      (fun x hx => hmar x (List.mem_cons_of_mem _ hx))
      (fun x hx => hfit x (List.mem_cons_of_mem _ hx)) hpos
    simp only [writeAll, List.map_cons, framesOf, hok, ih1, ih2, hdata, List.append_assoc,
      and_self]

theorem readMany_spec {R : Type} (P : Prims R) (rs : List R)
    (hdec : ∀ src, P.decodeBlock (P.encodeBlock src) = .ok src) :
    ∀ (fc : fileClient) (envs : List Env),
      (∀ r ∈ rs, ∃ out, P.marshal r = .ok (out, P.Size r) ∧ out.length = P.Size r ∧
        P.Unmarshal out = .ok r) →
      (∀ r ∈ rs, 32 + P.Size r + P.Size r / 6 ≤ 4294967295) →
      fc.f.remaining = framesOf P rs → envs.length = rs.length + 1 →
      (readMany P fc envs).2 = rs.map .ok ++ [.error .EOF] := by
  induction rs with
  | nil =>
    intro fc envs _ _ hf hlen
    match envs, hlen with
    | [env], _ =>
      have h0 : fc.f.remaining.length = 0 := by rw [hf]; rfl
      simp only [readMany, readTS_of_empty P env fc h0, List.map_nil, List.nil_append]
  | cons r rs ih =>
    intro fc envs hmar hfit hf hlen
    match envs, hlen with
    | env :: envs, hlen =>
      obtain ⟨out, hm, hl, hun⟩ := hmar r (List.mem_cons_self _ _)
      obtain ⟨hres, hrem⟩ := readTS_step P env fc r out (framesOf P rs) hdec hm hl hun
        (hfit r (List.mem_cons_self _ _)) hf
      have ih1 := ih (readTS P env fc).1 envs
        (fun x hx => hmar x (List.mem_cons_of_mem _ hx))
        (fun x hx => hfit x (List.mem_cons_of_mem _ hx)) hrem
        (by simp only [List.length_cons] at hlen; omega)
      simp only [readMany, hres, ih1, List.map_cons, List.cons_append]

theorem sampleDecode_encode (src : List Byte) :
    samplePrims.decodeBlock (samplePrims.encodeBlock src) = .ok src := by
  show sampleDecode (0 :: src) = .ok src
  simp only [sampleDecode, if_true]

theorem hugeRec_bound :
    MaxEncodedLen (List.replicate 4294967296 (0 : Byte)).length = none := by
  rw [List.length_replicate]
  decide

theorem hugeRec_count : hugeRec.count = 4294967296 := by
  show (if (0 : Nat) = 0 then (List.replicate 4294967296 (0 : Byte)).length
    else 4294967296 + 0) = 4294967296
  rw [if_pos rfl, List.length_replicate]

theorem hugeRec_marshal :
    samplePrims.marshal hugeRec
      = .ok (List.replicate 4294967296 0, samplePrims.Size hugeRec) := by
  show Except.ok (hugeRec.body, hugeRec.count)
    = Except.ok (List.replicate 4294967296 (0 : Byte), 4294967296)
  rw [hugeRec_count]
  rfl

theorem hugeRec_length :
    (List.replicate 4294967296 (0 : Byte)).length = samplePrims.Size hugeRec :=
  List.length_replicate _ _

theorem writeTS_hugeRec (fc : fileClient) :
    writeTS samplePrims fc hugeRec =
      ({ fc with
          bMarshaled := (resizedMarshaled fc.bMarshaled (samplePrims.Size hugeRec)).store
            (List.replicate 4294967296 0),
          bEncoded := ⟨fc.bEncoded.arr, fc.bEncoded.cap⟩ },
        .error (.panic "snappy: decoded block is too large")) :=
  writeTS_of_too_large samplePrims fc hugeRec (List.replicate 4294967296 0) hugeRec_marshal
    hugeRec_bound

theorem writeAll_singleton {R : Type} (P : Prims R) (fc : fileClient) (r : R) :
    writeAll P fc [r] = ((writeTS P fc r).1, [(writeTS P fc r).2]) := rfl

theorem readMany_cons {R : Type} (P : Prims R) (fc : fileClient) (env : Env) (envs : List Env) :
    (readMany P fc (env :: envs)).2
      = (readTS P env fc).2.2 :: (readMany P (readTS P env fc).1 envs).2 := rfl

theorem hugeRec_file :
    (writeAll samplePrims (newFileClient ⟨[], 0⟩ false) [hugeRec]).1.f.data = [] := by
  rw [writeAll_singleton, writeTS_hugeRec]
  rfl

theorem hugeRec_unmarshal :
    samplePrims.Unmarshal (List.replicate 4294967296 0) = .ok hugeRec := by
  show Except.ok (SampleRec.mk (List.replicate 4294967296 (0 : Byte)).length
    (List.replicate 4294967296 0) 0) = Except.ok hugeRec
  rw [List.length_replicate]
  rfl

theorem hugeRec_write :
    (writeAll samplePrims (newFileClient ⟨[], 0⟩ false) [hugeRec]).2
      = [.error (.panic "snappy: decoded block is too large")] := by
  rw [writeAll_singleton, writeTS_hugeRec]

theorem hugeRec_read :
    (readMany samplePrims
        (newFileClient
          ⟨(writeAll samplePrims (newFileClient ⟨[], 0⟩ false) [hugeRec]).1.f.data, 0⟩ false)
        [sampleEnv, sampleEnv]).2
      ≠ [.ok hugeRec, .error .EOF] := by
  rw [hugeRec_file, readMany_cons,
    readTS_of_empty samplePrims sampleEnv (newFileClient ⟨[], 0⟩ false) rfl]
  intro h
  injection h with h1 _
  cases h1

/-- C1 fails as stated: the 4 GiB sample record meets the three hypotheses on the
primitives, yet `writeTS` on the empty file ends in the `ErrTooLarge` panic of
`snappy.Encode`, nothing is written, and reading from the start does not return the
record. -/
theorem roundtrip_fails_for_huge_record :
    (∀ src, samplePrims.decodeBlock (samplePrims.encodeBlock src) = .ok src) ∧
    (∃ out, samplePrims.marshal hugeRec = .ok (out, samplePrims.Size hugeRec) ∧
      out.length = samplePrims.Size hugeRec ∧ samplePrims.Unmarshal out = .ok hugeRec) ∧
    (writeAll samplePrims (newFileClient ⟨[], 0⟩ false) [hugeRec]).2
      = [.error (.panic "snappy: decoded block is too large")] ∧
    (readMany samplePrims
        (newFileClient
          ⟨(writeAll samplePrims (newFileClient ⟨[], 0⟩ false) [hugeRec]).1.f.data, 0⟩ false)
        [sampleEnv, sampleEnv]).2
      ≠ [.ok hugeRec, .error .EOF] :=
  ⟨sampleDecode_encode,
    ⟨List.replicate 4294967296 0, hugeRec_marshal, hugeRec_length, hugeRec_unmarshal⟩,
    hugeRec_write, hugeRec_read⟩

/-- C1 (amended): for records whose serialized size `S` satisfies
`32 + S + S/6 <= 4294967295` (the block size `snappy.Encode` accepts), under the three
hypotheses on the primitives, writing `r1..rn` in order to an empty file succeeds each
time, the file then holds exactly the frames of `r1..rn`, and `n+1` calls of `readTS`
from the start return `r1..rn` in order and then the bare `io.EOF`. -/
theorem write_then_read_roundtrip {R : Type} (P : Prims R) (rs : List R)
    (fcW fcR : fileClient) (envs : List Env)
    (hdec : ∀ src, P.decodeBlock (P.encodeBlock src) = .ok src)
    (hmar : ∀ r ∈ rs, ∃ out, P.marshal r = .ok (out, P.Size r) ∧ out.length = P.Size r ∧
      P.Unmarshal out = .ok r)
    (hfit : ∀ r ∈ rs, 32 + P.Size r + P.Size r / 6 ≤ 4294967295)
    (hempty : fcW.f = ⟨[], 0⟩)
    (hstart : fcR.f = ⟨(writeAll P fcW rs).1.f.data, 0⟩)
    (henvs : envs.length = rs.length + 1) :
    (writeAll P fcW rs).2 = rs.map (fun _ => .ok ()) ∧
    (writeAll P fcW rs).1.f.data = framesOf P rs ∧
    (readMany P fcR envs).2 = rs.map .ok ++ [.error .EOF] := by
  obtain ⟨hw1, hw2⟩ := writeAll_spec P rs fcW
    (fun r hr => by obtain ⟨out, h1, h2, -⟩ := hmar r hr; exact ⟨out, h1, h2⟩) hfit
    (by rw [hempty]; rfl)
  rw [hempty] at hw2
  simp only [List.nil_append] at hw2
  refine ⟨hw1, hw2, ?_⟩
  apply readMany_spec P rs hdec fcR envs hmar hfit _ henvs
  rw [hstart, hw2]
  rfl

/-- Witness for C1 (amended): three sample records, of 2, 0 and 1 bytes. -/
theorem write_then_read_roundtrip_witness :
    (writeAll samplePrims (bareClient ⟨[], 0⟩) [⟨2, [7, 9], 0⟩, ⟨0, [], 0⟩, ⟨1, [5], 0⟩]).2
      = [.ok (), .ok (), .ok ()] ∧
    (writeAll samplePrims (bareClient ⟨[], 0⟩) [⟨2, [7, 9], 0⟩, ⟨0, [], 0⟩, ⟨1, [5], 0⟩]).1.f.data
      = [0, 0, 0, 3, 0, 7, 9, 0, 0, 0, 1, 0, 0, 0, 0, 2, 0, 5] ∧
    (readMany samplePrims (bareClient ⟨[0, 0, 0, 3, 0, 7, 9, 0, 0, 0, 1, 0, 0, 0, 0, 2, 0, 5], 0⟩)
        [sampleEnv, sampleEnv, sampleEnv, sampleEnv]).2
      = [.ok ⟨2, [7, 9], 0⟩, .ok ⟨0, [], 0⟩, .ok ⟨1, [5], 0⟩, .error .EOF] :=
  write_then_read_roundtrip samplePrims [⟨2, [7, 9], 0⟩, ⟨0, [], 0⟩, ⟨1, [5], 0⟩]
    (bareClient ⟨[], 0⟩)
    (bareClient ⟨[0, 0, 0, 3, 0, 7, 9, 0, 0, 0, 1, 0, 0, 0, 0, 2, 0, 5], 0⟩)
    [sampleEnv, sampleEnv, sampleEnv, sampleEnv]
    sampleDecode_encode
    (by
      intro r hr
      simp only [List.mem_cons, List.mem_singleton, List.not_mem_nil, or_false] at hr
      rcases hr with rfl | rfl | rfl <;> exact ⟨_, rfl, rfl, rfl⟩)
    (by decide) rfl rfl rfl

theorem snappyDecode_cap {R : Type} (P : Prims R) (b : Slice) (src : List Byte) :
    (∃ e, P.decodeBlock src = .error e ∧
      snappyDecode P ⟨b.arr, b.cap⟩ src = (Slice.nil, some (.other e))) ∨
    (∃ out d, P.decodeBlock src = .ok out ∧ snappyDecode P ⟨b.arr, b.cap⟩ src = (d, none) ∧
      d.len = out.length ∧ d.len ≤ d.cap ∧ b.cap ≤ d.cap ∧
      (d.cap = b.cap ∨ (b.cap < out.length ∧ d.cap = out.length))) := by
  rcases snappyDecode_bytes P ⟨b.arr, b.cap⟩ src with ⟨e, he, hs⟩ | ⟨out, d, ho, hs, -, hl, hc⟩
  · exact Or.inl ⟨e, he, hs⟩
  · right
    refine ⟨out, d, ho, hs, hl, ?_⟩
    rcases hc with ⟨hle, harr⟩ | ⟨hlt, harr⟩
    · have hle1 : out.length ≤ b.arr.length := hle
      have hcap : d.cap = b.cap := by
        simp only [Slice.cap, harr, List.length_append, List.length_drop]
        omega
      exact ⟨by rw [hl, hcap]; exact hle, le_of_eq hcap.symm, Or.inl hcap⟩
    · have hlt1 : b.arr.length < out.length := hlt
      have hcap : d.cap = out.length := by simp only [Slice.cap, harr]
      exact ⟨by rw [hl, hcap], by rw [hcap]; exact le_of_lt hlt, Or.inr ⟨hlt, hcap⟩⟩

theorem readPayload_caps {R : Type} (P : Prims R) (fc0 : fileClient) (logs : List Progress)
    (data : List Byte) (pos L : Nat) (b1 : Slice) (hlen : b1.len = L) (hcap : L ≤ b1.cap) :
    (readPayload P fc0 logs data pos L b1).1.bRead.cap = b1.cap ∧
    (readPayload P fc0 logs data pos L b1).1.bRead.len = L ∧
    (((readPayload P fc0 logs data pos L b1).1.bDecoded = Slice.nil ∧
        ∃ e, P.decodeBlock ((data.drop (pos + 4)).take L) = .error e ∧
          ((data.drop (pos + 4)).take L).length = L ∧
          (readPayload P fc0 logs data pos L b1).2.2
            = .error (.wrap (.other e) "failed to decode message")) ∨
     ((∀ e, (readPayload P fc0 logs data pos L b1).2.2
          ≠ .error (.wrap (.other e) "failed to decode message")) ∧
      fc0.bDecoded.cap ≤ (readPayload P fc0 logs data pos L b1).1.bDecoded.cap ∧
      ((readPayload P fc0 logs data pos L b1).1.bDecoded.cap = fc0.bDecoded.cap ∨
        ∃ out, P.decodeBlock ((data.drop (pos + 4)).take L) = .ok out ∧
          fc0.bDecoded.cap < out.length ∧
          (readPayload P fc0 logs data pos L b1).1.bDecoded.cap = out.length))) := by
  have hple : ((data.drop (pos + 4)).take L).length ≤ L := by simp [List.length_take]
  have hst : (b1.store ((data.drop (pos + 4)).take L)).cap = b1.cap :=
    Slice.cap_store _ _ (by omega)
  unfold readPayload
  simp only
  split
  · refine ⟨hst, hlen, Or.inr ⟨?_, le_refl _, Or.inl rfl⟩⟩
    intro e
    split <;> simp
  · rename_i hnl
    rcases snappyDecode_cap P fc0.bDecoded ((data.drop (pos + 4)).take L)
      with ⟨e, he, hs⟩ | ⟨out, d, ho, hs, -, -, hge, hc⟩
    · rw [hs]
      exact ⟨hst, hlen, Or.inl ⟨rfl, e, he, by omega, rfl⟩⟩
    · simp only [hs]
      have hd : (d.cap = fc0.bDecoded.cap ∨
          ∃ out, P.decodeBlock ((data.drop (pos + 4)).take L) = .ok out ∧
            fc0.bDecoded.cap < out.length ∧ d.cap = out.length) := by
        rcases hc with h | ⟨h1, h2⟩
        · exact Or.inl h
        · exact Or.inr ⟨out, ho, h1, h2⟩
      split
      · exact ⟨hst, hlen, Or.inr ⟨by intro e; simp, hge, hd⟩⟩
      · exact ⟨hst, hlen, Or.inr ⟨by intro e; simp, hge, hd⟩⟩

theorem readTS_caps {R : Type} (P : Prims R) (env : Env) (fc : fileClient)
    (hb : fc.bRead.cap < 4294967296) :
    fc.bRead.cap ≤ (readTS P env fc).1.bRead.cap ∧
    (readTS P env fc).1.bRead.cap < 4294967296 ∧
    ((readTS P env fc).1.bRead.cap = fc.bRead.cap ∨
      (4 ≤ fc.f.remaining.length ∧ fc.bRead.cap < beUint32 (fc.f.remaining.take 4) ∧
        (readTS P env fc).1.bRead.cap = beUint32 (fc.f.remaining.take 4))) ∧
    (((readTS P env fc).1.bDecoded = Slice.nil ∧
        ∃ e, (readTS P env fc).2.2 = .error (.wrap (.other e) "failed to decode message")) ∨
     ((∀ e, (readTS P env fc).2.2 ≠ .error (.wrap (.other e) "failed to decode message")) ∧
      fc.bDecoded.cap ≤ (readTS P env fc).1.bDecoded.cap ∧
      ((readTS P env fc).1.bDecoded.cap = fc.bDecoded.cap ∨
        ∃ out, P.decodeBlock ((fc.f.remaining.drop 4).take (beUint32 (fc.f.remaining.take 4)))
            = .ok out ∧ fc.bDecoded.cap < out.length ∧
          (readTS P env fc).1.bDecoded.cap = out.length))) := by
  have hbr : (logProgress env fc).1.bRead = fc.bRead := by rw [logProgress_fst]
  have hdd : fc.f.remaining.drop 4 = fc.f.data.drop (fc.f.pos + 4) := by
    simp only [File.remaining, List.drop_drop]
  have hbd : (logProgress env fc).1.bDecoded = fc.bDecoded := by rw [logProgress_fst]
  by_cases h4 : 4 ≤ fc.f.remaining.length
  · obtain ⟨b1, hb1, h⟩ := readTS_of_word P env fc h4
    obtain ⟨b2, hb2, hlen, hcap, hor⟩ := resizeRead_ok fc.bRead (beUint32 (fc.f.remaining.take 4))
    rw [hb1] at hb2
    cases hb2
    have hL := beUint32_lt (fc.f.remaining.take 4)
    obtain ⟨c1, -, c3⟩ := readPayload_caps P (logProgress env fc).1 (logProgress env fc).2
      fc.f.data fc.f.pos (beUint32 (fc.f.remaining.take 4)) b1 hlen hcap
    rw [← h, hbd] at c3
    rw [← h] at c1
    have hmod : fc.bRead.cap % 4294967296 = fc.bRead.cap := Nat.mod_eq_of_lt hb
    refine ⟨?_, ?_, ?_, ?_⟩
    · rw [c1]; rcases hor with h1 | ⟨h1, h2⟩ <;> omega
    · rw [c1]; rcases hor with h1 | ⟨h1, h2⟩ <;> omega
    · rw [c1]
      rcases hor with h1 | ⟨h1, h2⟩
      · exact Or.inl h1
      · exact Or.inr ⟨h4, by omega, h2⟩
    · rcases c3 with ⟨hn, e, -, -, he⟩ | ⟨hne, hge, hd⟩
      · exact Or.inl ⟨hn, e, he⟩
      · refine Or.inr ⟨hne, hge, ?_⟩
        rcases hd with hd | ⟨out, ho, h1, h2⟩
        · exact Or.inl hd
        · exact Or.inr ⟨out, by rw [hdd]; exact ho, h1, h2⟩
  · have key : (readTS P env fc).1.bRead = fc.bRead ∧ (readTS P env fc).1.bDecoded = fc.bDecoded ∧
        ∀ e, (readTS P env fc).2.2 ≠ .error (.wrap (.other e) "failed to decode message") := by
      by_cases h0 : fc.f.remaining.length = 0
      · rw [readTS_of_empty P env fc h0]
        exact ⟨hbr, hbd, by intro e; simp⟩
      · rw [readTS_of_short P env fc h0 (by omega)]
        exact ⟨hbr, hbd, by intro e; simp⟩
    obtain ⟨k1, k2, k3⟩ := key
    rw [k1, k2]
    exact ⟨le_refl _, hb, Or.inl rfl, Or.inr ⟨k3, le_refl _, Or.inl rfl⟩⟩

theorem encodedSlice_cap (b : Slice) (n : Nat) (enc : List Byte) (h : enc.length ≤ n) :
    (encodedSlice b n enc).cap = (if b.cap < n then n else b.cap) := by
  unfold encodedSlice
  simp only [Slice.cap]
  by_cases hc : b.arr.length < n
  · simp only [hc, if_true, Slice.make, List.length_append, List.length_drop,
      List.length_replicate]
    omega
  · simp only [hc, if_false, List.length_append, List.length_drop]
    omega

theorem resizedMarshaled_cap (b : Slice) (size : Nat) :
    (resizedMarshaled b size).cap = (if b.cap < size then size else b.cap) := by
  unfold resizedMarshaled
  simp only [Slice.cap]
  by_cases hc : b.arr.length ≥ size
  · have : ¬ b.arr.length < size := by omega
    simp only [hc, this, if_true, if_false]
  · have : b.arr.length < size := by omega
    simp only [hc, this, if_true, if_false, Slice.make, List.length_replicate]

theorem writeTS_caps {R : Type} (P : Prims R) (fc : fileClient) (ts : R) :
    (writeTS P fc ts).1.bRead = fc.bRead ∧
    (writeTS P fc ts).1.bDecoded = fc.bDecoded ∧
    (writeTS P fc ts).1.bMarshaled.cap
      = (if fc.bMarshaled.cap < P.Size ts then P.Size ts else fc.bMarshaled.cap) ∧
    ((writeTS P fc ts).1.bEncoded.cap = fc.bEncoded.cap ∨
      ∃ out n, P.marshal ts = .ok (out, P.Size ts) ∧ MaxEncodedLen out.length = some n ∧
        fc.bEncoded.cap < n ∧ (writeTS P fc ts).1.bEncoded.cap = n) := by
  have hrc := resizedMarshaled_cap fc.bMarshaled (P.Size ts)
  have hsz : P.Size ts ≤ (resizedMarshaled fc.bMarshaled (P.Size ts)).cap := by
    rw [hrc]; split <;> omega
  have hst : ∀ out : List Byte, out.length ≤ P.Size ts →
      ((resizedMarshaled fc.bMarshaled (P.Size ts)).store out).cap
        = (if fc.bMarshaled.cap < P.Size ts then P.Size ts else fc.bMarshaled.cap) := by
    intro out hle
    rw [Slice.cap_store _ _ (by omega), hrc]
  rcases writeTS_cases P ts with ⟨e, hm⟩ | ⟨out, n, hm, hgt⟩ | ⟨out, n, hm, hle, hne⟩ |
    ⟨out, hm, hlen, hn⟩ | ⟨out, n, hm, hlen, hn⟩
  · rw [writeTS_of_marshal_error P fc ts e hm]
    exact ⟨rfl, rfl, hrc, Or.inl rfl⟩
  · rw [writeTS_of_overrun P fc ts out n hm hgt]
    exact ⟨rfl, rfl, hrc, Or.inl rfl⟩
  · rw [writeTS_of_mismatch P fc ts out n hm hle hne]
    exact ⟨rfl, rfl, hst out hle, Or.inl rfl⟩
  · rw [writeTS_of_too_large P fc ts out hm hn]
    exact ⟨rfl, rfl, hst out (by omega), Or.inl rfl⟩
  · rw [writeTS_of_fit P fc ts out n hm hn]
    obtain ⟨hn1, -⟩ := MaxEncodedLen_some _ _ hn
    have hle := P.encodeBlock_le out
    have hec := encodedSlice_cap fc.bEncoded n (P.encodeBlock out) (by omega)
    refine ⟨rfl, rfl, hst out (by omega), ?_⟩
    show (encodedSlice fc.bEncoded n (P.encodeBlock out)).cap = fc.bEncoded.cap ∨ _
    by_cases hc : fc.bEncoded.cap < n
    · right
      refine ⟨out, n, hm, hn, hc, ?_⟩
      show (encodedSlice fc.bEncoded n (P.encodeBlock out)).cap = n
      rw [hec, if_pos hc]
    · left
      rw [hec, if_neg hc]

theorem Reachable.bRead_cap_lt {R : Type} (P : Prims R) (fc : fileClient)
    (h : Reachable P fc) : fc.bRead.cap < 4294967296 := by
  induction h with
  | init f statFails =>
    show (List.replicate 1048576 (0 : Byte)).length < 4294967296
    rw [List.length_replicate]
    decide
  | read env fc _ ih => exact (readTS_caps P env fc ih).2.1
  | write ts fc _ ih => rw [(writeTS_caps P fc ts).1]; exact ih

theorem readTS_result_eq {R : Type} (P : Prims R) (env : Env) (fc : fileClient) :
    (readTS P env fc).2.2 = (frameRead P fc.f).2 :=
  congrArg Prod.snd (readTS_frame P env fc)

theorem readTS_file_eq {R : Type} (P : Prims R) (env : Env) (fc : fileClient) :
    (readTS P env fc).1.f = (frameRead P fc.f).1 :=
  congrArg Prod.fst (readTS_frame P env fc)

theorem newFileClient_f (f : File) (statFails : Bool) : (newFileClient f statFails).f = f := rfl

theorem newFileClient_bDecoded_cap (f : File) (statFails : Bool) :
    (newFileClient f statFails).bDecoded.cap = 1048576 := by
  show (List.replicate 1048576 (0 : Byte)).length = 1048576
  exact List.length_replicate _ _

/-- C6: the capacity of `bDecoded` does shrink.  On a client fresh from `newFileClient`,
over a file holding the frame `00 00 00 01 01` (length word 1, one byte that is not a
Snappy block), `readTS` fails with "failed to decode message" and has stored the nil slice
returned by `snappy.Decode` into `bDecoded`: its capacity is 1048576 before the call and
0 after it. -/
theorem bDecoded_capacity_drops_on_decode_failure :
    Reachable samplePrims (newFileClient ⟨[0, 0, 0, 1, 1], 0⟩ false) ∧
    (readTS samplePrims sampleEnv (newFileClient ⟨[0, 0, 0, 1, 1], 0⟩ false)).2.2
      = .error (.wrap (.other "snappy: corrupt input") "failed to decode message") ∧
    (newFileClient ⟨[0, 0, 0, 1, 1], 0⟩ false).bDecoded.cap = 1048576 ∧
    (readTS samplePrims sampleEnv (newFileClient ⟨[0, 0, 0, 1, 1], 0⟩ false)).1.bDecoded.cap
      = 0 := by
  have hres : (readTS samplePrims sampleEnv (newFileClient ⟨[0, 0, 0, 1, 1], 0⟩ false)).2.2
      = .error (.wrap (.other "snappy: corrupt input") "failed to decode message") := by
    rw [readTS_result_eq, newFileClient_f]
    rfl
  have hreach : Reachable samplePrims (newFileClient ⟨[0, 0, 0, 1, 1], 0⟩ false) :=
    Reachable.init _ _
  refine ⟨hreach, hres, newFileClient_bDecoded_cap _ _, ?_⟩
  rcases (readTS_caps samplePrims sampleEnv _ (Reachable.bRead_cap_lt _ _ hreach)).2.2.2
    with ⟨hnil, -⟩ | ⟨hne, -⟩
  · rw [hnil]; rfl
  · exact absurd hres (hne _)

theorem writeTS_frame {R : Type} (P : Prims R) (fc : fileClient) (ts : R) :
    ((writeTS P fc ts).1.f, (writeTS P fc ts).2) = frameWrite P fc.f ts ∧
    (writeTS P fc ts).1.fSize = fc.fSize ∧ (writeTS P fc ts).1.lastLog = fc.lastLog := by
  unfold frameWrite
  rcases writeTS_cases P ts with ⟨e, hm⟩ | ⟨out, n, hm, hgt⟩ | ⟨out, n, hm, hle, hne⟩ |
    ⟨out, hm, hlen, hn⟩ | ⟨out, n, hm, hlen, hn⟩
  · rw [writeTS_of_marshal_error P fc ts e hm, hm]
    exact ⟨rfl, rfl, rfl⟩
  · rw [writeTS_of_overrun P fc ts out n hm hgt, hm]
    simp only [hgt, if_true, and_self]
  · rw [writeTS_of_mismatch P fc ts out n hm hle hne, hm]
    have h1 : ¬ P.Size ts < out.length := by omega
    simp only [h1, hne, ne_eq, not_false_eq_true, if_false, if_true, and_self]
  · rw [writeTS_of_too_large P fc ts out hm hn, hm]
    have h1 : ¬ P.Size ts < out.length := by omega
    simp only [h1, hn, ne_eq, not_true_eq_false, if_false, and_self]
  · rw [writeTS_of_fit P fc ts out n hm hn, hm]
    have h1 : ¬ P.Size ts < out.length := by omega
    simp only [h1, hn, ne_eq, not_true_eq_false, if_false, File.write_write, and_self]

theorem readTS_emits {R : Type} (P : Prims R) (env : Env) (fc : fileClient) :
    (readTS P env fc).2.1 =
      (if env.sinceNow - fc.lastLog > tenSeconds ∧ fc.fSize ≠ 0 ∧ env.seekFails = false
        then [⟨fc.f.pos, fc.fSize⟩] else []) ∧
    (readTS P env fc).1.lastLog =
      (if env.sinceNow - fc.lastLog > tenSeconds then env.now else fc.lastLog) := by
  obtain ⟨h1, h2, -⟩ := readTS_logs P env fc
  rw [h1, h2, logProgress_snd, logProgress_fst]
  exact ⟨rfl, rfl⟩

/-- C7: with the clock as an input, two consecutive `readTS` calls whose clock readings
lie less than 10 seconds apart (`time.Since` of the second call against `time.Since` of
the first, the clock not running backwards inside the first call) emit at most one
progress notification together; a call emits a notification only if more than 10 seconds
have passed since `lastLog`, and every call for which more than 10 seconds have passed
sets `lastLog` to the reading of `time.Now`. -/
theorem progress_throttled {R : Type} (P : Prims R) (fc : fileClient) (e1 e2 : Env)
    (hclock : e1.sinceNow ≤ e1.now) (hnear : e2.sinceNow - e1.sinceNow < tenSeconds) :
    ((readTS P e1 fc).2.1 ++ (readTS P e2 (readTS P e1 fc).1).2.1).length ≤ 1 ∧
    ((readTS P e1 fc).2.1 ≠ [] → e1.sinceNow - fc.lastLog > tenSeconds) ∧
    (e1.sinceNow - fc.lastLog > tenSeconds → (readTS P e1 fc).1.lastLog = e1.now) := by
  obtain ⟨a1, a2⟩ := readTS_emits P e1 fc
  obtain ⟨b1, -⟩ := readTS_emits P e2 (readTS P e1 fc).1
  refine ⟨?_, ?_, ?_⟩
  · rw [List.length_append, b1, a1, a2]
    by_cases h : e1.sinceNow - fc.lastLog > tenSeconds
    · have h2 : ¬ e2.sinceNow - e1.now > tenSeconds := by omega
      simp only [h, h2, if_true, false_and, if_false, List.length_nil]
      split <;> simp
    · simp only [h, false_and, if_false, List.length_nil]
      split <;> simp
  · intro hne
    rw [a1] at hne
    by_contra h
    simp only [h, false_and, if_false, ne_eq, not_true_eq_false] at hne
  · intro h
    rw [a2, if_pos h]

/-- Witness for C7: two reads one second apart on a file whose size is known. -/
theorem progress_throttled_witness :
    ((readTS samplePrims ⟨100000000000, 100000000001, false⟩
          { bareClient ⟨[0, 0, 0, 1, 0, 0, 0, 0, 1, 0], 0⟩ with fSize := 10 }).2.1
      ++ (readTS samplePrims ⟨101000000000, 101000000001, false⟩
          (readTS samplePrims ⟨100000000000, 100000000001, false⟩
            { bareClient ⟨[0, 0, 0, 1, 0, 0, 0, 0, 1, 0], 0⟩ with fSize := 10 }).1).2.1).length
      ≤ 1 ∧
    (readTS samplePrims ⟨100000000000, 100000000001, false⟩
        { bareClient ⟨[0, 0, 0, 1, 0, 0, 0, 0, 1, 0], 0⟩ with fSize := 10 }).2.1 = [⟨0, 10⟩] :=
  ⟨(progress_throttled samplePrims
      { bareClient ⟨[0, 0, 0, 1, 0, 0, 0, 0, 1, 0], 0⟩ with fSize := 10 }
      ⟨100000000000, 100000000001, false⟩ ⟨101000000000, 101000000001, false⟩
      (by decide) (by decide)).1, rfl⟩

/-- C8: the record or error returned by `readTS` and the file afterwards (so the bytes
consumed) are the same for every cached size `fSize`, every `lastLog`, every clock reading
and every outcome of the offset query; and with `fSize = 0` no notification is emitted. -/
theorem readTS_independent_of_progress {R : Type} (P : Prims R) (fc : fileClient)
    (fSize : Nat) (lastLog : Int) (e1 e2 : Env) :
    (readTS P e1 fc).2.2 = (readTS P e2 { fc with fSize := fSize, lastLog := lastLog }).2.2 ∧
    (readTS P e1 fc).1.f = (readTS P e2 { fc with fSize := fSize, lastLog := lastLog }).1.f ∧
    (readTS P e1 { fc with fSize := 0 }).2.1 = [] := by
  refine ⟨?_, ?_, ?_⟩
  · rw [readTS_result_eq, readTS_result_eq]
  · rw [readTS_file_eq, readTS_file_eq]
  · rw [(readTS_emits P e1 { fc with fSize := 0 }).1]
    simp

/-- C9: replacing the four reusable buffers by arbitrary slices (nil included) changes
neither what `readTS` returns, consumes and reports, nor what `writeTS` returns and
writes.  The outcome of `readTS` is `frameRead` of the file, where decompression receives
exactly the `L` payload bytes of the frame and `Unmarshal` exactly the decompressed bytes;
the outcome of `writeTS` is `frameWrite` of the file and the record. -/
theorem buffers_not_observable {R : Type} (P : Prims R) (fc : fileClient)
    (bRead bDecoded bMarshaled bEncoded : Slice) (env : Env) (ts : R) :
    (readTS P env fc).2.2
      = (readTS P env (withBuffers fc bRead bDecoded bMarshaled bEncoded)).2.2 ∧
    (readTS P env fc).1.f
      = (readTS P env (withBuffers fc bRead bDecoded bMarshaled bEncoded)).1.f ∧
    (readTS P env fc).2.1
      = (readTS P env (withBuffers fc bRead bDecoded bMarshaled bEncoded)).2.1 ∧
    (writeTS P fc ts).2
      = (writeTS P (withBuffers fc bRead bDecoded bMarshaled bEncoded) ts).2 ∧
    (writeTS P fc ts).1.f
      = (writeTS P (withBuffers fc bRead bDecoded bMarshaled bEncoded) ts).1.f ∧
    ((readTS P env fc).1.f, (readTS P env fc).2.2) = frameRead P fc.f ∧
    ((writeTS P fc ts).1.f, (writeTS P fc ts).2) = frameWrite P fc.f ts := by
  have hw1 := (writeTS_frame P fc ts).1
  have hw2 := (writeTS_frame P (withBuffers fc bRead bDecoded bMarshaled bEncoded) ts).1
  have hw : ((writeTS P fc ts).1.f, (writeTS P fc ts).2)
      = ((writeTS P (withBuffers fc bRead bDecoded bMarshaled bEncoded) ts).1.f,
         (writeTS P (withBuffers fc bRead bDecoded bMarshaled bEncoded) ts).2) :=
    hw1.trans hw2.symm
  refine ⟨?_, ?_, ?_, (Prod.mk.inj hw).2, (Prod.mk.inj hw).1, readTS_frame P env fc, hw1⟩
  · rw [readTS_result_eq, readTS_result_eq]
    rfl
  · rw [readTS_file_eq, readTS_file_eq]
    rfl
  · rw [(readTS_emits P env fc).1, (readTS_emits P env _).1]
    rfl

/-- C10: the resize steps are in bounds and exact, for every slice, every length word `L`
and every size `S`: each step returns a slice (no slice-bounds panic) of length `L`,
respectively `S`, and capacity at least that; the re-slice is the branch taken exactly when
the comparison of the source holds, and the comparison on the capacity truncated to 32
bits never admits an `L` above the real capacity.  `readTS` and `writeTS` never end in a
slice-bounds panic. -/
theorem resize_in_bounds {R : Type} (P : Prims R) (env : Env) (fc : fileClient) (ts : R)
    (b : Slice) (L S : Nat) :
    resizeRead b L
      = .ok (if b.cap % 4294967296 ≥ L then ⟨b.arr, L⟩ else Slice.make L) ∧
    (L ≤ b.cap ∨ b.cap % 4294967296 < L) ∧
    (∃ b1, resizeRead b L = .ok b1 ∧ b1.len = L ∧ L ≤ b1.cap) ∧
    resizeMarshaled b S = .ok (if b.cap ≥ S then ⟨b.arr, S⟩ else Slice.make S) ∧
    (∃ b2, resizeMarshaled b S = .ok b2 ∧ b2.len = S ∧ S ≤ b2.cap) ∧
    (readTS P env fc).2.2 ≠ .error (.panic "slice bounds out of range") ∧
    (writeTS P fc ts).2 ≠ .error (.panic "slice bounds out of range") := by
  have hmod : b.cap % 4294967296 ≤ b.cap := Nat.mod_le _ _
  obtain ⟨b1, h1, h2, h3, -⟩ := resizeRead_ok b L
  obtain ⟨b2, k1, k2, k3, -⟩ := resizeMarshaled_ok b S
  refine ⟨?_, by omega, ⟨b1, h1, h2, h3⟩, resizeMarshaled_eq b S, ⟨b2, k1, k2, k3⟩, ?_, ?_⟩
  · unfold resizeRead
    by_cases h : b.cap % 4294967296 ≥ L
    · have hle : L ≤ b.cap := le_trans h hmod
      simp only [h, if_true, Slice.reslice, hle]
    · simp only [h, if_false]
  · rw [readTS_result_eq]
    unfold frameRead
    simp only
    split
    · simp
    · split
      · simp
      · split
        · simp
        · split
          · simp
          · split <;> simp
  · have hw := congrArg Prod.snd (writeTS_frame P fc ts).1
    simp only at hw
    rw [hw]
    unfold frameWrite
    split
    · simp
    · split
      · simp
      · split
        · simp
        · split <;> simp


end PromHouse
